import Mathlib

/-!
Verification of the pydanticforge type-inference core: a shallow embedding of
the type algebra (`inference/types.py`), the join lattice (`inference/lattice.py`),
value inference (`inference/infer.py`), drift detection (`monitor/drift.py`),
state persistence (`state.py`), the JSON-Schema decoder (`json_schema.py`) and
the semantic diff (`diff/semantic.py`), together with proofs about them.

Machine integers are modelled as `Int` (Python ints are unbounded), strings as
`String`, tuples/lists as `List`, and Python `dict`s as insertion-ordered
association lists with last-write-wins insertion.  Python's
`sorted(set, key=type_sort_key)` is modelled by a deterministic sorted-distinct
insertion whose comparison uses `type_sort_key` (the canonical type name) as
primary key and a full structural comparison as tie-break; within one Python
process the set/sort pipeline is deterministic in exactly this sense.
-/

namespace PydanticForge

/-- The closed tagged union of type nodes from `inference/types.py`
(`AnyType`, `NullType`, `BoolType`, `IntType`, `FloatType`, `StrType`,
`DateTimeType`, `ArrayType`, `ObjectType`, `UnionType`).  `ObjectType.fields`
is the tuple of `(name, FieldInfo)` pairs with the `FieldInfo` record
`(type_node, required_count, sample_count, examples)` inlined as a tuple, so
that the inductive nests only through `List` and `Prod`. -/
inductive TypeNode where
  | any : TypeNode
  | null : TypeNode
  | bool : TypeNode
  | int : TypeNode
  | float : TypeNode
  | str : TypeNode
  | datetime : TypeNode
  | array (item_type : TypeNode) : TypeNode
  | object (fields : List (String × TypeNode × Int × Int × List String))
      (sample_count : Int) : TypeNode
  | union (options : List TypeNode) : TypeNode

/-- Constructor tag of a `TypeNode`, mirroring the order of the class
declarations in `inference/types.py`; used by the structural comparison. -/
def TypeNode.tag : TypeNode → Nat
  | .any => 0
  | .null => 1
  | .bool => 2
  | .int => 3
  | .float => 4
  | .str => 5
  | .datetime => 6
  | .array _ => 7
  | .object _ _ => 8
  | .union _ => 9

/-- Three-way comparison of naturals. -/
def cmpNat (a b : Nat) : Ordering :=
  if a < b then .lt else if b < a then .gt else .eq

/-- Three-way comparison of integers. -/
def cmpInt (a b : Int) : Ordering :=
  if a < b then .lt else if b < a then .gt else .eq

/-- Lexicographic three-way comparison of character lists by code point,
the ordering Python uses on strings. -/
def cmpCharL : List Char → List Char → Ordering
  | [], [] => .eq
  | [], _ :: _ => .lt
  | _ :: _, [] => .gt
  | x :: xs, y :: ys => (cmpNat x.toNat y.toNat).then (cmpCharL xs ys)

/-- Three-way comparison of strings by code-point lexicographic order
(Python's string ordering). -/
def cmpStr (a b : String) : Ordering :=
  cmpCharL a.data b.data

/-- Lexicographic comparison of string lists (field examples). -/
def cmpStrList : List String → List String → Ordering
  | [], [] => .eq
  | [], _ :: _ => .lt
  | _ :: _, [] => .gt
  | x :: xs, y :: ys => (cmpStr x y).then (cmpStrList xs ys)

mutual

/-- Total structural comparison on `TypeNode` (constructor tag first, then
components); it is the deterministic tie-break underlying the embedding of
Python's set/sort pipeline, and induces decidable equality. -/
def cmpN : TypeNode → TypeNode → Ordering
  | .array x, .array y => cmpN x y
  | .object fx sx, .object fy sy => (cmpFields fx fy).then (cmpInt sx sy)
  | .union x, .union y => cmpOpts x y
  | a, b => cmpNat a.tag b.tag

/-- Lexicographic comparison of object field lists. -/
def cmpFields : List (String × TypeNode × Int × Int × List String) →
    List (String × TypeNode × Int × Int × List String) → Ordering
  | [], [] => .eq
  | [], _ :: _ => .lt
  | _ :: _, [] => .gt
  | x :: xs, y :: ys =>
    ((cmpStr x.1 y.1).then ((cmpN x.2.1 y.2.1).then ((cmpInt x.2.2.1 y.2.2.1).then
      ((cmpInt x.2.2.2.1 y.2.2.2.1).then (cmpStrList x.2.2.2.2 y.2.2.2.2))))).then
      (cmpFields xs ys)

/-- Lexicographic comparison of union option lists. -/
def cmpOpts : List TypeNode → List TypeNode → Ordering
  | [], [] => .eq
  | [], _ :: _ => .lt
  | _ :: _, [] => .gt
  | x :: xs, y :: ys => (cmpN x y).then (cmpOpts xs ys)

end

/-- Structural equality of `TypeNode`s as a boolean, the embedding of Python's
`==` on the frozen dataclasses; defined from the structural comparison. -/
def beqN (a b : TypeNode) : Bool :=
  match cmpN a b with
  | .eq => true
  | _ => false

instance instBEqTypeNode : BEq TypeNode := ⟨beqN⟩

/-- `FieldInfo` from `inference/types.py`: the per-field record
`(type_node, required_count, sample_count, examples)`; the API view of the
tuple stored inside `TypeNode.object`. -/
structure FieldInfo where
  type_node : TypeNode
  required_count : Int
  sample_count : Int
  examples : List String

/-- View a field tuple as a `FieldInfo`. -/
def fieldOfTuple (t : String × TypeNode × Int × Int × List String) : FieldInfo :=
  ⟨t.2.1, t.2.2.1, t.2.2.2.1, t.2.2.2.2⟩

/-- Pack a named `FieldInfo` back into a field tuple. -/
def tupleOfField (name : String) (f : FieldInfo) :
    String × TypeNode × Int × Int × List String :=
  (name, f.type_node, f.required_count, f.sample_count, f.examples)

/-- `FieldInfo.required`: a field is required iff it appeared in every sample. -/
def FieldInfo.required (f : FieldInfo) : Bool :=
  f.required_count == f.sample_count

/-- The singleton `ANY` from `inference/types.py`. -/
def ANY : TypeNode := .any

/-- The singleton `NULL` from `inference/types.py`. -/
def NULL : TypeNode := .null

/-- The singleton `BOOL` from `inference/types.py`. -/
def BOOL : TypeNode := .bool

/-- The singleton `INT` from `inference/types.py`. -/
def INT : TypeNode := .int

/-- The singleton `FLOAT` from `inference/types.py`. -/
def FLOAT : TypeNode := .float

/-- The singleton `STR` from `inference/types.py`. -/
def STR : TypeNode := .str

/-- The singleton `DATETIME` from `inference/types.py`. -/
def DATETIME : TypeNode := .datetime

/-- A field tuple as stored in `TypeNode.object`: name, then the `FieldInfo`
components `(type_node, required_count, sample_count, examples)`. -/
abbrev FieldT := String × TypeNode × Int × Int × List String

/-- Recognizer for `AnyType` (Python's `isinstance(node, AnyType)`). -/
def TypeNode.isAny : TypeNode → Bool
  | .any => true
  | _ => false

/-- Recognizer for `UnionType` (Python's `isinstance(node, UnionType)`). -/
def TypeNode.isUnion : TypeNode → Bool
  | .union _ => true
  | _ => false

/-- Insert a string into a list, before the first strictly greater element
(stable insertion step for sorting). -/
def insStr (x : String) : List String → List String
  | [] => [x]
  | y :: ys =>
    match cmpStr x y with
    | .gt => y :: insStr x ys
    | _ => x :: y :: ys

/-- Sort a list of strings (Python's `sorted` on strings). -/
def sortStrs (l : List String) : List String :=
  l.foldr insStr []

/-- Insert a string into a sorted duplicate-free list, keeping it sorted and
duplicate-free. -/
def insStrD (x : String) : List String → List String
  | [] => [x]
  | y :: ys =>
    match cmpStr x y with
    | .lt => x :: y :: ys
    | .eq => y :: ys
    | .gt => y :: insStrD x ys

/-- Sorted duplicate-free list of strings: Python's `sorted(set(l))`. -/
def sortDedupStrs (l : List String) : List String :=
  l.foldr insStrD []

/-- `type_name` from `inference/types.py`: canonical rendering of a type node
(`list[...]` for arrays, `object<name,...>` for objects, the sorted
`" | "`-join of option names for unions). -/
def type_name : TypeNode → String
  | .any => "Any"
  | .null => "None"
  | .bool => "bool"
  | .int => "int"
  | .float => "float"
  | .str => "str"
  | .datetime => "datetime"
  | .array item => "list[" ++ type_name item ++ "]"
  | .object fields _ =>
    "object<" ++ String.intercalate "," (fields.map (fun f => f.1)) ++ ">"
  | .union options => String.intercalate " | " (sortStrs (nameList options))
where
  /-- Names of a list of nodes, in order. -/
  nameList : List TypeNode → List String
    | [] => []
    | o :: os => type_name o :: nameList os

/-- `type_sort_key` from `inference/types.py`. -/
def type_sort_key (node : TypeNode) : String :=
  type_name node

/-- The comparison realizing Python's `sorted(set-of-TypeNode, key=type_sort_key)`:
primary key is `type_sort_key`, with the total structural comparison as
deterministic tie-break between distinct nodes of equal name. -/
def cmpKey (a b : TypeNode) : Ordering :=
  (cmpStr (type_sort_key a) (type_sort_key b)).then (cmpN a b)

/-- Insert a node into a `cmpKey`-sorted duplicate-free list, keeping it sorted
and duplicate-free. -/
def insNodeD (x : TypeNode) : List TypeNode → List TypeNode
  | [] => [x]
  | y :: ys =>
    match cmpKey x y with
    | .lt => x :: y :: ys
    | .eq => y :: ys
    | .gt => y :: insNodeD x ys

/-- Sorted duplicate-free list of nodes: Python's `sorted(set(l), key=type_sort_key)`
under the deterministic tie-break. -/
def sortDedupNodes (l : List TypeNode) : List TypeNode :=
  l.foldr insNodeD []

/-- `flatten_union_options` from `inference/types.py`: flatten away nested
unions, preserving order. -/
def flatten_union_options : List TypeNode → List TypeNode
  | [] => []
  | .union opts :: rest => flatten_union_options opts ++ flatten_union_options rest
  | n :: rest => n :: flatten_union_options rest

/-- `_merge_examples` from `inference/lattice.py`: sorted union of the two
example sets, capped at `limit` (default 3). -/
def merge_examples (left right : List String) (limit : Nat := 3) : List String :=
  (sortDedupStrs (left ++ right)).take limit

/-- `simplify_union` from `inference/lattice.py`: flatten the given nodes,
collapse to `Any` if any option is `Any`, deduplicate, drop `Int` when both
`Int` and `Float` are present and `strict_numbers` is off, unwrap a singleton,
and otherwise build a `Union` of the options sorted by `type_sort_key`.
(The Python code deduplicates into a set and sorts at the end; here the set is
kept as its canonically sorted list throughout, which commutes with the
removal of `INT`.) -/
def simplify_union (nodes : List TypeNode) (strict_numbers : Bool := false) :
    TypeNode :=
  let options := flatten_union_options nodes
  if options.any TypeNode.isAny then ANY
  else
    let deduped := sortDedupNodes options
    let deduped :=
      if !strict_numbers && deduped.contains FLOAT && deduped.contains INT then
        deduped.erase INT
      else deduped
    match deduped with
    | [only] => only
    | _ => .union deduped

/-- Keys of an object field list (Python `set(mapping)` keeps each key once;
field lists in this development model `dict`s, whose keys are unique). -/
def fieldKeys (fields : List FieldT) : List String :=
  fields.map (fun f => f.1)

/-- Lookup of a field by name (Python `dict(...).get(name)`; keys of a `dict`
are unique, so the first match is the binding). -/
def lookupF : List FieldT → String → Option FieldT
  | [], _ => none
  | t :: rest, n => if t.1 == n then some t else lookupF rest n

/-- Stable insertion step for sorting keyed pairs by key. -/
def insPairByKey {α : Type} (x : String × α) :
    List (String × α) → List (String × α)
  | [] => [x]
  | y :: ys =>
    match cmpStr x.1 y.1 with
    | .gt => y :: insPairByKey x ys
    | _ => x :: y :: ys

/-- Sort keyed pairs by key: Python's `sorted(mapping.items(), key=...)`. -/
def sortPairsByKey {α : Type} (l : List (String × α)) : List (String × α) :=
  l.foldr insPairByKey []

/-- `ObjectType.from_mapping` from `inference/types.py`: build an object node
whose fields are the mapping's items sorted by name. -/
def from_mapping (mapping : List FieldT) (sample_count : Int) : TypeNode :=
  .object (sortPairsByKey mapping) sample_count

mutual

/-- `join_types` from `inference/lattice.py`: the least-upper-bound style merge
of two type nodes (equality fast path, `Any` absorption, int/float handling,
array and object recursion, union fallback through `simplify_union`). -/
def join_types (left right : TypeNode) (strict_numbers : Bool := false) :
    TypeNode :=
  if beqN left right then left
  else if left.isAny || right.isAny then ANY
  else
    match left, right with
    | .int, .float => simplify_union [.int, .float] strict_numbers
    | .float, .int => simplify_union [.float, .int] strict_numbers
    | .array li, .array ri => .array (join_types li ri strict_numbers)
    | .object lf ls, .object rf rs =>
      .object
        (sortPairsByKey
          (join_object_fields (sortDedupStrs (fieldKeys lf ++ fieldKeys rf))
            lf rf (ls + rs) strict_numbers))
        (ls + rs)
    | l, r => simplify_union [l, r] strict_numbers
termination_by (sizeOf left + sizeOf right, 0)
decreasing_by
  · apply Prod.Lex.left
    simp_arith
  · apply Prod.Lex.left
    simp_arith

/-- The field-merging loop of `_join_object_fields` from
`inference/lattice.py`: for each name (in the sorted union of the two key
sets), a field present on both sides gets the join of its types, the sum of
its `required_count`s, the merged examples, and `sample_count` set to the
merged object's total; a field present on one side keeps its type,
`required_count` and examples, with `sample_count` likewise set to the total.
(The unreachable both-`None` case, an `assert` in the source, yields no
entry.) -/
def join_object_fields (names : List String) (lf rf : List FieldT)
    (total : Int) (strict_numbers : Bool) : List FieldT :=
  match names with
  | [] => []
  | n :: rest =>
    let tail := join_object_fields rest lf rf total strict_numbers
    match hl : lookupF lf n, hr : lookupF rf n with
    | some l, some r =>
      (n, join_types l.2.1 r.2.1 strict_numbers, l.2.2.1 + r.2.2.1, total,
        merge_examples l.2.2.2.2 r.2.2.2.2) :: tail
    | some l, none => (n, l.2.1, l.2.2.1, total, l.2.2.2.2) :: tail
    | none, some r => (n, r.2.1, r.2.2.1, total, r.2.2.2.2) :: tail
    | none, none => tail
termination_by (sizeOf lf + sizeOf rf, names.length + 1)
decreasing_by
  all_goals
    have lookup_size :
        ∀ (fs : List FieldT) (nm : String) (t : FieldT),
          lookupF fs nm = some t → sizeOf t.2.1 < sizeOf fs := by
      intro fs
      induction fs with
      | nil =>
        intro nm t h
        simp [lookupF] at h
      | cons hd tl ih =>
        intro nm t h
        rw [lookupF] at h
        by_cases hb : hd.1 == nm
        · simp [hb] at h
          subst h
          obtain ⟨t1, t2, t3, t4, t5⟩ := hd
          simp_arith
        · simp [hb] at h
          have := ih nm t h
          simp_arith
          omega
  · apply Prod.Lex.right
    simp_arith
  · apply Prod.Lex.left
    have h1 := lookup_size lf _ l hl
    have h2 := lookup_size rf _ r hr
    omega

end

/-- `_join_object_fields` from `inference/lattice.py`, at the object level:
merge two objects field-wise over the sorted union of their key sets, with the
summed `sample_count`, feeding the result through `ObjectType.from_mapping`
(which sorts by key). -/
def join_object_types (lf rf : List FieldT) (ls rs : Int)
    (strict_numbers : Bool) : TypeNode :=
  from_mapping
    (join_object_fields (sortDedupStrs (fieldKeys lf ++ fieldKeys rf))
      lf rf (ls + rs) strict_numbers)
    (ls + rs)

/-- A JSON-like runtime value (the input domain of `infer_type` and the data
layer of `state.py` / `json_schema.py`): Python `None`, `bool`, `int`, `float`,
`str`, `list`, `dict`.  Floats carry their literal rendering (no float
arithmetic happens anywhere in the embedded code). -/
inductive JValue where
  | jnull : JValue
  | jbool (b : Bool) : JValue
  | jint (n : Int) : JValue
  | jfloat (lit : String) : JValue
  | jstr (s : String) : JValue
  | jarr (items : List JValue) : JValue
  | jobj (entries : List (String × JValue)) : JValue

/-- Python `dict` insertion with override of an existing key. -/
def dictInsert {α : Type} (acc : List (String × α)) (k : String) (v : α) :
    List (String × α) :=
  match acc with
  | [] => [(k, v)]
  | (k', v') :: rest =>
    if k' == k then (k, v) :: rest else (k', v') :: dictInsert rest k v

/-- Build a Python `dict` from a pair list: insertion order kept, later
bindings of the same key override earlier ones. -/
def dictOf {α : Type} (pairs : List (String × α)) : List (String × α) :=
  pairs.foldl (fun acc p => dictInsert acc p.1 p.2) []

/-- Modelled from the spec and the Python `repr` builtin, which is outside the
repository: the canonical textual rendering of a value, as used for the
`examples` strings (`repr(raw_val)` in `inference/infer.py`).  Scalar
renderings (`None`, `True`/`False`, integer and float literals, quoted
strings) follow Python; nested containers are rendered in Python literal
style without the escaping subtleties of `repr`. -/
def pyRepr : JValue → String
  | .jnull => "None"
  | .jbool b => if b then "True" else "False"
  | .jint n => toString n
  | .jfloat lit => lit
  | .jstr s => "'" ++ s ++ "'"
  | .jarr items => "[" ++ String.intercalate ", " (reprList items) ++ "]"
  | .jobj entries => "\x7b" ++ String.intercalate ", " (reprObj entries) ++ "\x7d"
where
  /-- Renderings of array elements, in order. -/
  reprList : List JValue → List String
    | [] => []
    | v :: vs => pyRepr v :: reprList vs
  /-- Renderings of object entries, in order. -/
  reprObj : List (String × JValue) → List String
    | [] => []
    | (k, v) :: rest => ("'" ++ k ++ "': " ++ pyRepr v) :: reprObj rest

/-- The sample-string truncation of `TypeInferer`'s field examples in
`inference/infer.py`: over 80 characters, keep 77 and add an ellipsis. -/
def truncated_sample (s : String) : String :=
  if s.length > 80 then s.take 77 ++ "..." else s

/-- Decimal digit test for the ISO-format model. -/
def isDigitChar (c : Char) : Bool :=
  48 ≤ c.toNat && c.toNat ≤ 57

/-- Modelled from the spec and Python's `datetime.fromisoformat`, which is
outside the repository: accepts strings opening with a `YYYY-MM-DD` date part,
optionally followed by a `T` or space and a time part.  (Only the overall
shape matters to the embedded code; every string the claims touch is decided
by the 10-character guard in `is_datetime_string` anyway.) -/
def fromisoformat_ok (s : String) : Bool :=
  match s.data with
  | y1 :: y2 :: y3 :: y4 :: d1 :: m1 :: m2 :: d2 :: a1 :: a2 :: rest =>
    isDigitChar y1 && isDigitChar y2 && isDigitChar y3 && isDigitChar y4 &&
    d1 == '-' && isDigitChar m1 && isDigitChar m2 &&
    d2 == '-' && isDigitChar a1 && isDigitChar a2 &&
    (rest.isEmpty || rest.headD ' ' == 'T' || rest.headD ' ' == ' ')
  | _ => false

/-- `_is_datetime_string` from `inference/infer.py`: strings shorter than 10
characters are never date-times; otherwise defer to the ISO-8601 parse with
`Z` normalized to `+00:00`. -/
def is_datetime_string (s : String) : Bool :=
  if s.length < 10 then false
  else fromisoformat_ok (s.replace "Z" "+00:00")

mutual

/-- `infer_type` from `inference/infer.py`: map one runtime value to a type
node (`bool` before `int`, date-time detection on strings, element-fold for
arrays, per-key singleton `FieldInfo` for objects, `Any` for anything else —
here every `JValue` constructor is one of the handled cases). -/
def infer_type : JValue → TypeNode
  | .jnull => NULL
  | .jbool _ => BOOL
  | .jint _ => INT
  | .jfloat _ => FLOAT
  | .jstr s => if is_datetime_string s then DATETIME else STR
  | .jarr [] => .array ANY
  | .jarr (x :: xs) => .array (infer_items (infer_type x) xs)
  | .jobj entries => from_mapping (dictOf (infer_fields entries)) 1

/-- The element fold of `infer_type` on non-empty arrays:
`join_types(item_type, infer_type(item))` left to right. -/
def infer_items (item_type : TypeNode) : List JValue → TypeNode
  | [] => item_type
  | v :: vs => infer_items (join_types item_type (infer_type v)) vs

/-- The per-key `FieldInfo` construction of `infer_type` on objects:
`required_count = sample_count = 1` and one truncated `repr` example. -/
def infer_fields : List (String × JValue) → List FieldT
  | [] => []
  | (k, v) :: rest =>
    (k, infer_type v, 1, 1, [truncated_sample (pyRepr v)]) :: infer_fields rest

end

/-- `TypeInferer.observe` from `inference/infer.py`: infer the value's type
and join it into the current root (or make it the root). -/
def observe (strict_numbers : Bool) (root : Option TypeNode) (value : JValue) :
    Option TypeNode :=
  match root with
  | none => some (infer_type value)
  | some r => some (join_types r (infer_type value) strict_numbers)

/-- `TypeInferer.observe_many` from `inference/infer.py`: fold `observe` over
a sequence of values. -/
def observe_many (strict_numbers : Bool) (root : Option TypeNode)
    (values : List JValue) : Option TypeNode :=
  values.foldl (observe strict_numbers) root

/-- `DriftEvent` from `monitor/drift.py`. -/
structure DriftEvent where
  path : String
  expected : String
  observed : String
  kind : String

/-- `BREAKING_DRIFT_KINDS` from `monitor/drift.py`. -/
def BREAKING_DRIFT_KINDS : List String :=
  ["type_mismatch", "missing_required_field"]

/-- `drift_severity` from `monitor/drift.py`. -/
def drift_severity (event : DriftEvent) : String :=
  if BREAKING_DRIFT_KINDS.contains event.kind then "breaking" else "warning"

/-- `_is_same_scalar_family` from `monitor/drift.py`: both nodes are the same
scalar primitive (`Bool`/`Int`/`Float`/`Str`/`DateTime`/`Null`). -/
def is_same_scalar_family (expected observed : TypeNode) : Bool :=
  match expected, observed with
  | .bool, .bool => true
  | .int, .int => true
  | .float, .float => true
  | .str, .str => true
  | .datetime, .datetime => true
  | .null, .null => true
  | _, _ => false

mutual

/-- `_is_compatible` from `monitor/drift.py`: `Any` accepts everything,
equality accepts, `Float` accepts `Int`, a `Union` expectation accepts when
any option does, arrays recurse on items, objects require every expected
field to be absent-and-optional or present-and-compatible, and otherwise two
nodes are compatible only as identical scalar families. -/
def is_compatible (expected observed : TypeNode) : Bool :=
  if beqN expected ANY then true
  else if beqN expected observed then true
  else if beqN expected FLOAT && beqN observed INT then true
  else
    match expected, observed with
    | .union opts, o => any_option_compatible opts o
    | .array ei, .array oi => is_compatible ei oi
    | .object ef _, .object og _ => compatible_fields ef og
    | e, o => is_same_scalar_family e o
termination_by sizeOf expected + sizeOf observed
decreasing_by
  all_goals simp_arith

/-- The `any(_is_compatible(option, observed) ...)` loop over the options of
an expected union. -/
def any_option_compatible (options : List TypeNode) (observed : TypeNode) :
    Bool :=
  match options with
  | [] => false
  | o :: rest => is_compatible o observed || any_option_compatible rest observed
termination_by sizeOf options + sizeOf observed
decreasing_by
  all_goals simp_arith

/-- The expected-fields loop of `_is_compatible` on object pairs: a missing
observed field fails iff the expected field is required; a present one must
be recursively compatible. -/
def compatible_fields (efields ofields : List FieldT) : Bool :=
  match efields with
  | [] => true
  | (n, t, rc, sc, _) :: rest =>
    match hval : lookupF ofields n with
    | none =>
      if rc == sc then false else compatible_fields rest ofields
    | some seen => is_compatible t seen.2.1 && compatible_fields rest ofields
termination_by sizeOf efields + sizeOf ofields
decreasing_by
  all_goals
    have lookup_size :
        ∀ (fs : List FieldT) (nm : String) (t : FieldT),
          lookupF fs nm = some t → sizeOf t.2.1 < sizeOf fs := by
      intro fs
      induction fs with
      | nil =>
        intro nm t h
        simp [lookupF] at h
      | cons hd tl ih =>
        intro nm t h
        rw [lookupF] at h
        by_cases hb : hd.1 == nm
        · simp [hb] at h
          subst h
          obtain ⟨t1, t2, t3, t4, t5⟩ := hd
          simp_arith
        · simp [hb] at h
          have := ih nm t h
          simp_arith
          omega
  · simp_arith
  · have h1 := lookup_size ofields _ seen hval
    simp_arith
    omega
  · simp_arith

end

/-- The new-field loop of `_detect_object_drift` from `monitor/drift.py`:
one `new_field` event per observed field whose name the expected object does
not have. -/
def drift_new_fields (efields ofields : List FieldT) (path : String) :
    List DriftEvent :=
  match ofields with
  | [] => []
  | (n, t, _, _, _) :: rest =>
    if (lookupF efields n).isSome then drift_new_fields efields rest path
    else
      ⟨path ++ "." ++ n, "<absent>", type_name t, "new_field"⟩ ::
        drift_new_fields efields rest path

mutual

/-- `detect_drift` from `monitor/drift.py`: an expected union compatible with
the observed node through any option yields no events; an incompatible pair
recurses structurally for object/object and array/array and otherwise emits a
single `type_mismatch`; a compatible pair still recurses into object/object
and array/array pairs. -/
def detect_drift (expected observed : TypeNode) (path : String) :
    List DriftEvent :=
  let unionOk :=
    match expected with
    | .union opts => any_option_compatible opts observed
    | _ => false
  if unionOk then []
  else if !is_compatible expected observed then
    match expected, observed with
    | .object ef _, .object og _ => detect_object_drift ef og path
    | .array ei, .array oi => detect_drift ei oi (path ++ "[]")
    | e, o => [⟨path, type_name e, type_name o, "type_mismatch"⟩]
  else
    match expected, observed with
    | .object ef _, .object og _ => detect_object_drift ef og path
    | .array ei, .array oi => detect_drift ei oi (path ++ "[]")
    | _, _ => []
termination_by (sizeOf expected + sizeOf observed, 0)
decreasing_by
  all_goals apply Prod.Lex.left
  all_goals simp_arith

/-- `_detect_object_drift` from `monitor/drift.py`: walk the expected fields
(missing-and-required or recursive drift), then report the observed-only
fields. -/
def detect_object_drift (efields ofields : List FieldT) (path : String) :
    List DriftEvent :=
  drift_expected_fields efields ofields path ++
    drift_new_fields efields ofields path
termination_by (sizeOf efields + sizeOf ofields, 1)
decreasing_by
  apply Prod.Lex.right
  simp_arith

/-- The expected-fields loop of `_detect_object_drift`: a missing required
field emits `missing_required_field`; a present field recurses with the
dotted child path. -/
def drift_expected_fields (efields ofields : List FieldT) (path : String) :
    List DriftEvent :=
  match efields with
  | [] => []
  | (n, t, rc, sc, _) :: rest =>
    (match hval : lookupF ofields n with
     | none =>
       if rc == sc then
         [⟨path ++ "." ++ n, type_name t, "<missing>", "missing_required_field"⟩]
       else []
     | some seen => detect_drift t seen.2.1 (path ++ "." ++ n)) ++
      drift_expected_fields rest ofields path
termination_by (sizeOf efields + sizeOf ofields, 0)
decreasing_by
  all_goals
    have lookup_size :
        ∀ (fs : List FieldT) (nm : String) (t : FieldT),
          lookupF fs nm = some t → sizeOf t.2.1 < sizeOf fs := by
      intro fs
      induction fs with
      | nil =>
        intro nm t h
        simp [lookupF] at h
      | cons hd tl ih =>
        intro nm t h
        rw [lookupF] at h
        by_cases hb : hd.1 == nm
        · simp [hb] at h
          subst h
          obtain ⟨t1, t2, t3, t4, t5⟩ := hd
          simp_arith
        · simp [hb] at h
          have := ih nm t h
          simp_arith
          omega
  · apply Prod.Lex.left
    have h1 := lookup_size ofields _ seen hval
    simp_arith
    omega
  · apply Prod.Lex.left
    simp_arith

end

/-- Generic key lookup in a Python `dict` modelled as a pair list
(`data.get(key)` / `data[key]`; keys unique, first match). -/
def lookupJ : List (String × JValue) → String → Option JValue
  | [], _ => none
  | (k', v') :: rest, k => if k' == k then some v' else lookupJ rest k

mutual

/-- `_type_to_data` from `state.py`: encode a type node as the JSON payload
dictionary (`kind` tag; `item_type` for arrays; `sample_count` plus a `fields`
list of name/type/counts/examples records for objects; `options` for
unions). -/
def type_to_data : TypeNode → JValue
  | .any => .jobj [("kind", .jstr "any")]
  | .null => .jobj [("kind", .jstr "null")]
  | .bool => .jobj [("kind", .jstr "bool")]
  | .int => .jobj [("kind", .jstr "int")]
  | .float => .jobj [("kind", .jstr "float")]
  | .str => .jobj [("kind", .jstr "str")]
  | .datetime => .jobj [("kind", .jstr "datetime")]
  | .array item => .jobj [("kind", .jstr "array"), ("item_type", type_to_data item)]
  | .object fields sc =>
    .jobj
      [("kind", .jstr "object"), ("sample_count", .jint sc),
        ("fields", .jarr (fields_to_data fields))]
  | .union options =>
    .jobj [("kind", .jstr "union"), ("options", .jarr (options_to_data options))]

/-- The per-field encoding of `_type_to_data` on objects. -/
def fields_to_data : List FieldT → List JValue
  | [] => []
  | (n, t, rc, sc, ex) :: rest =>
    .jobj
      [("name", .jstr n), ("type", type_to_data t), ("required_count", .jint rc),
        ("sample_count", .jint sc), ("examples", .jarr (ex.map JValue.jstr))] ::
      fields_to_data rest

/-- The per-option encoding of `_type_to_data` on unions. -/
def options_to_data : List TypeNode → List JValue
  | [] => []
  | o :: os => type_to_data o :: options_to_data os

end

/-- Read a stored examples array back as strings (`tuple(entry.get("examples",
[]))` in `state.py`; the encoder only ever writes strings there). -/
def examples_from_data : Option JValue → Option (List String)
  | none => some []
  | some (.jarr items) =>
    items.foldr
      (fun it acc =>
        match it, acc with
        | .jstr s, some l => some (s :: l)
        | _, _ => none)
      (some [])
  | some _ => none

mutual

/-- `_type_from_data` from `state.py`: decode the JSON payload dictionary back
into a type node, dispatching on the `kind` tag; any malformed payload (a
non-dictionary, a missing key, a non-integer count, or an unknown kind — a
raised `KeyError`/`ValueError`/`TypeError` in the source) decodes to `none`. -/
def type_from_data : JValue → Option TypeNode
  | .jobj kvs =>
    match lookupJ kvs "kind" with
    | some (.jstr kind) =>
      if kind == "any" then some ANY
      else if kind == "null" then some NULL
      else if kind == "bool" then some BOOL
      else if kind == "int" then some INT
      else if kind == "float" then some FLOAT
      else if kind == "str" then some STR
      else if kind == "datetime" then some DATETIME
      else if kind == "array" then
        match h : lookupJ kvs "item_type" with
        | some item =>
          match type_from_data item with
          | some t => some (.array t)
          | none => none
        | none => none
      else if kind == "object" then
        match hf : lookupJ kvs "fields" with
        | some (.jarr entries) =>
          match lookupJ kvs "sample_count" with
          | some (.jint sc) =>
            match fields_from_data entries with
            | some fields => some (from_mapping (dictOf fields) sc)
            | none => none
          | some .jnull => none
          | some (.jbool _) => none
          | some (.jfloat _) => none
          | some (.jstr _) => none
          | some (.jarr _) => none
          | some (.jobj _) => none
          | none => none
        | some .jnull => none
        | some (.jbool _) => none
        | some (.jint _) => none
        | some (.jfloat _) => none
        | some (.jstr _) => none
        | some (.jobj _) => none
        | none => none
      else if kind == "union" then
        match ho : lookupJ kvs "options" with
        | some (.jarr options) =>
          match options_from_data options with
          | some opts => some (.union opts)
          | none => none
        | some .jnull => none
        | some (.jbool _) => none
        | some (.jint _) => none
        | some (.jfloat _) => none
        | some (.jstr _) => none
        | some (.jobj _) => none
        | none => none
      else none
    | some .jnull => none
    | some (.jbool _) => none
    | some (.jint _) => none
    | some (.jfloat _) => none
    | some (.jarr _) => none
    | some (.jobj _) => none
    | none => none
  | .jnull => none
  | .jbool _ => none
  | .jint _ => none
  | .jfloat _ => none
  | .jstr _ => none
  | .jarr _ => none
termination_by data => sizeOf data
decreasing_by
  all_goals
    have lookup_size :
        ∀ (kvs : List (String × JValue)) (k : String) (v : JValue),
          lookupJ kvs k = some v → sizeOf v < sizeOf kvs := by
      intro kvs
      induction kvs with
      | nil =>
        intro k v h
        simp [lookupJ] at h
      | cons hd tl ih =>
        intro k v h
        rw [lookupJ] at h
        by_cases hb : hd.1 == k
        · simp [hb] at h
          subst h
          obtain ⟨k1, v1⟩ := hd
          simp_arith
        · simp [hb] at h
          have := ih k v h
          simp_arith
          omega
  · have := lookup_size kvs _ _ h
    simp_arith
    omega
  · have := lookup_size kvs _ _ hf
    simp_arith at this ⊢
    omega
  · have := lookup_size kvs _ _ ho
    simp_arith at this ⊢
    omega

/-- The per-field decoding loop of `_type_from_data` on `kind == "object"`:
each entry must be a record with `name`, `type`, `required_count` and
`sample_count` keys (a missing or ill-typed one raises in the source), and
`examples` defaults to the empty list. -/
def fields_from_data : List JValue → Option (List FieldT)
  | [] => some []
  | .jobj entry :: rest =>
    (match lookupJ entry "name" with
     | some (.jstr n) =>
       match ht : lookupJ entry "type" with
       | some tdata =>
         match lookupJ entry "required_count" with
         | some (.jint rc) =>
           match lookupJ entry "sample_count" with
           | some (.jint sc) =>
             match type_from_data tdata with
             | some t =>
               match examples_from_data (lookupJ entry "examples") with
               | some ex =>
                 match fields_from_data rest with
                 | some tail => some ((n, t, rc, sc, ex) :: tail)
                 | none => none
               | none => none
             | none => none
           | some .jnull => none
           | some (.jbool _) => none
           | some (.jfloat _) => none
           | some (.jstr _) => none
           | some (.jarr _) => none
           | some (.jobj _) => none
           | none => none
         | some .jnull => none
         | some (.jbool _) => none
         | some (.jfloat _) => none
         | some (.jstr _) => none
         | some (.jarr _) => none
         | some (.jobj _) => none
         | none => none
       | none => none
     | some .jnull => none
     | some (.jbool _) => none
     | some (.jint _) => none
     | some (.jfloat _) => none
     | some (.jarr _) => none
     | some (.jobj _) => none
     | none => none)
  | .jnull :: _ => none
  | .jbool _ :: _ => none
  | .jint _ :: _ => none
  | .jfloat _ :: _ => none
  | .jstr _ :: _ => none
  | .jarr _ :: _ => none
termination_by entries => sizeOf entries
decreasing_by
  all_goals
    have lookup_size :
        ∀ (kvs : List (String × JValue)) (k : String) (v : JValue),
          lookupJ kvs k = some v → sizeOf v < sizeOf kvs := by
      intro kvs
      induction kvs with
      | nil =>
        intro k v h
        simp [lookupJ] at h
      | cons hd tl ih =>
        intro k v h
        rw [lookupJ] at h
        by_cases hb : hd.1 == k
        · simp [hb] at h
          subst h
          obtain ⟨k1, v1⟩ := hd
          simp_arith
        · simp [hb] at h
          have := ih k v h
          simp_arith
          omega
  · have h1 := lookup_size entry _ _ ht
    simp_arith
    omega
  · simp_arith

/-- The per-option decoding loop of `_type_from_data` on `kind == "union"`. -/
def options_from_data : List JValue → Option (List TypeNode)
  | [] => some []
  | o :: os =>
    match type_from_data o with
    | some t =>
      match options_from_data os with
      | some ts => some (t :: ts)
      | none => none
    | none => none
termination_by options => sizeOf options
decreasing_by
  all_goals simp_arith

end

/-- Modelled from the Python `str` builtin, which is outside the repository:
`str()` of a string is the string itself, and of any other value its `repr`
style rendering (used by `json_schema.py` for `str(name)` on `required`
entries and property keys). -/
def pyStr : JValue → String
  | .jstr s => s
  | v => pyRepr v

/-- Recognizer for Python `isinstance(value, dict)` on JSON values. -/
def JValue.isJObj : JValue → Bool
  | .jobj _ => true
  | _ => false

/-- `_dedupe_union` from `json_schema.py`: `Any` for an empty option list, the
sole element of a singleton after deduplication, otherwise a `Union` of the
deduplicated options sorted by `type_sort_key`.  (Unlike `simplify_union`,
this neither flattens nested unions nor collapses `Any`.) -/
def dedupe_union (options : List TypeNode) : TypeNode :=
  match options with
  | [] => ANY
  | _ =>
    match sortDedupNodes options with
    | [only] => only
    | deduped => .union deduped

/-- The `required` set of a JSON-Schema object: `{str(name) for name in
required_names}` when the `required` entry is a list, else the empty set
(membership is all that is ever asked of it). -/
def required_names_of (v : Option JValue) : List String :=
  match v with
  | some (.jarr names) => names.map pyStr
  | _ => []

/-- Combine decoded options, propagating a decoding failure
(`Option`-sequencing of the option-list comprehensions in
`_from_json_schema`). -/
def seqOptions : List (Option TypeNode) → Option (List TypeNode)
  | [] => some []
  | some t :: rest =>
    match seqOptions rest with
    | some ts => some (t :: ts)
    | none => none
  | none :: _ => none

/-- Test for the `"object"` value of a JSON-Schema `type` entry. -/
def isObjectTag : Option JValue → Bool
  | some (.jstr "object") => true
  | _ => false

mutual

/-- `_from_json_schema` from `json_schema.py`: decode a JSON-Schema fragment
(`anyOf`/`oneOf` through `_dedupe_union` keeping only `dict` options, a `type`
list by re-decoding the schema with `type` replaced by each listed value, the
scalar `type` tags with `date-time` format detection on strings, `array`
items, `object` properties with the `required` set, and `Any` for anything
else, including non-`dict` fragments).  A `none` result is the `TypeError`
the source raises when `anyOf`/`oneOf` holds a non-list. -/
def from_json_schema_v (schema : JValue) : Option TypeNode :=
  match schema with
  | .jobj kvs =>
    match hany : lookupJ kvs "anyOf" with
    | some (.jarr options) =>
      match schema_options (options.filter JValue.isJObj) with
      | some opts => some (dedupe_union opts)
      | none => none
    | some _ => none
    | none =>
    match hone : lookupJ kvs "oneOf" with
    | some (.jarr options) =>
      match schema_options (options.filter JValue.isJObj) with
      | some opts => some (dedupe_union opts)
      | none => none
    | some _ => none
    | none =>
    match hty : lookupJ kvs "type" with
    | some (.jarr values) =>
      match
        seqOptions
          (values.attach.map
            (fun x => from_json_schema_v (.jobj (dictInsert kvs "type" x.1)))) with
      | some opts => some (dedupe_union opts)
      | none => none
    | some (.jstr "null") => some NULL
    | some (.jstr "boolean") => some BOOL
    | some (.jstr "integer") => some INT
    | some (.jstr "number") => some FLOAT
    | some (.jstr "string") =>
      match lookupJ kvs "format" with
      | some (.jstr "date-time") => some DATETIME
      | _ => some STR
    | some (.jstr "array") =>
      match hit : lookupJ kvs "items" with
      | some (.jobj item_kvs) =>
        match from_json_schema_v (.jobj item_kvs) with
        | some t => some (.array t)
        | none => none
      | _ =>
        match from_json_schema_v (.jobj []) with
        | some t => some (.array t)
        | none => none
    | st =>
      if isObjectTag st || (lookupJ kvs "properties").isSome then
        let required_set := required_names_of (lookupJ kvs "required")
        match hp : lookupJ kvs "properties" with
        | some (.jobj entries) =>
          match schema_props (sortPairsByKey entries) required_set with
          | some fields => some (from_mapping (dictOf fields) 1)
          | none => none
        | _ =>
          match schema_props (sortPairsByKey ([] : List (String × JValue)))
              required_set with
          | some fields => some (from_mapping (dictOf fields) 1)
          | none => none
      else some ANY
  | _ => some ANY
termination_by (sizeOf schema, 1)
decreasing_by
  all_goals
    have lookup_size :
        ∀ (kvs : List (String × JValue)) (k : String) (v : JValue),
          lookupJ kvs k = some v → sizeOf v < sizeOf kvs := by
      intro kvs
      induction kvs with
      | nil =>
        intro k v h
        simp [lookupJ] at h
      | cons hd tl ih =>
        intro k v h
        rw [lookupJ] at h
        by_cases hb : hd.1 == k
        · simp [hb] at h
          subst h
          obtain ⟨k1, v1⟩ := hd
          simp_arith
        · simp [hb] at h
          have := ih k v h
          simp_arith
          omega
  all_goals
    have filter_size :
        ∀ (l : List JValue), sizeOf (List.filter JValue.isJObj l) ≤ sizeOf l := by
      intro l
      induction l with
      | nil => simp
      | cons o os ih =>
        cases hpo : JValue.isJObj o <;> simp only [List.filter_cons, hpo] <;>
          simp_arith <;> omega
  · apply Prod.Lex.left
    have h1 := lookup_size _ _ _ hany
    have h2 := filter_size options
    simp_arith at h1 ⊢
    omega
  · apply Prod.Lex.left
    have h1 := lookup_size _ _ _ hone
    have h2 := filter_size options
    simp_arith at h1 ⊢
    omega
  · apply Prod.Lex.left
    have h1 := lookup_size _ _ _ hty
    have h2 : sizeOf x.1 < 1 + sizeOf values := by
      have hmem := List.sizeOf_lt_of_mem x.2
      omega
    have h3 :
        ∀ (acc : List (String × JValue)) (v w : JValue) (k : String),
          lookupJ acc k = some w →
            sizeOf (dictInsert acc k v) + sizeOf w = sizeOf acc + sizeOf v := by
      intro acc v
      induction acc with
      | nil =>
        intro w k h
        simp [lookupJ] at h
      | cons hd tl ih =>
        intro w k h
        rw [lookupJ] at h
        obtain ⟨k1, v1⟩ := hd
        by_cases hb : k1 == k
        · have hk : k1 = k := eq_of_beq hb
          subst hk
          simp at h
          subst h
          rw [dictInsert]
          simp
          simp_arith
        · simp only at h
          simp [hb] at h
          have := ih w k h
          rw [dictInsert]
          simp [hb]
          simp_arith
          omega
    have h4 := h3 _ x.1 _ "type" hty
    simp_arith at h1 h4 ⊢
    omega
  · apply Prod.Lex.left
    have h1 := lookup_size _ _ _ hit
    simp_arith at h1 ⊢
    omega
  · apply Prod.Lex.left
    have h1 := lookup_size _ _ _ hty
    have h2 : (1 : Nat) ≤ sizeOf "array" := by
      simp_arith
    simp_arith at h1 ⊢
    omega
  · apply Prod.Lex.left
    have h1 := lookup_size _ _ _ hp
    have h2 :
        ∀ (l : List (String × JValue)), sizeOf (sortPairsByKey l) = sizeOf l := by
      have hins :
          ∀ (x : String × JValue) (l : List (String × JValue)),
            sizeOf (insPairByKey x l) = 1 + sizeOf x + sizeOf l := by
        intro x l
        induction l with
        | nil => simp [insPairByKey]
        | cons y ys ih =>
          rw [insPairByKey]
          cases cmpStr x.1 y.1 <;> simp_arith [ih]
      intro l
      induction l with
      | nil => simp [sortPairsByKey]
      | cons y ys ih =>
        simp only [sortPairsByKey] at ih ⊢
        rw [List.foldr_cons, hins]
        simp_arith [ih]
    rw [h2]
    simp_arith at h1 ⊢
    omega
  · apply Prod.Lex.left
    have h1 : ∀ (l : List (String × JValue)), 0 < sizeOf l := by
      intro l
      cases l <;> simp_arith
    simp_arith [sortPairsByKey]
    exact h1 _

/-- The option loop of `_from_json_schema` on `anyOf`/`oneOf` lists (already
filtered to `dict` options). -/
def schema_options (options : List JValue) : Option (List TypeNode) :=
  match options with
  | [] => some []
  | o :: os =>
    match from_json_schema_v o, schema_options os with
    | some t, some ts => some (t :: ts)
    | _, _ => none
termination_by (sizeOf options, 0)
decreasing_by
  all_goals apply Prod.Lex.left
  all_goals simp_arith

/-- The properties loop of `_from_json_schema` on objects: each property key
gets `required_count` 1 or 0 by membership in the `required` set,
`sample_count` 1 and no examples; a non-`dict` property schema decodes as the
empty schema `{}`. -/
def schema_props (props : List (String × JValue)) (required_set : List String) :
    Option (List FieldT)  :=
  match props with
  | [] => some []
  | (k, v) :: rest =>
    match from_json_schema_v (if v.isJObj then v else .jobj []),
        schema_props rest required_set with
    | some t, some tail =>
      some ((pyStr (.jstr k), t,
        if required_set.contains (pyStr (.jstr k)) then 1 else 0, 1,
        ([] : List String)) :: tail)
    | _, _ => none
termination_by (sizeOf props, 0)
decreasing_by
  · apply Prod.Lex.left
    by_cases hv : JValue.isJObj v
    · simp [hv]
      simp_arith
    · simp [hv]
      have hv1 : 1 ≤ sizeOf v := by
        cases v <;> simp_arith
      simp_arith
      omega
  · apply Prod.Lex.left
    simp_arith

end

/-- `ModelField` from `diff/semantic.py` (its `annotation` string field is
called `annot` here). -/
structure ModelField where
  annot : String
  required : Bool

/-- `ModelSchema` from `diff/semantic.py`: the `classes` dictionary, class
name to field name to `ModelField` (`dict`s as unique-key pair lists). -/
abbrev ModelSchema := List (String × List (String × ModelField))

/-- `DiffEntry` from `diff/semantic.py`. -/
structure DiffEntry where
  severity : String
  class_name : String
  field_name : Option String
  message : String

/-- Generic `dict` lookup by key (first match; `dict` keys are unique). -/
def lookupA {α : Type} : List (String × α) → String → Option α
  | [], _ => none
  | (k', v') :: rest, k => if k' == k then some v' else lookupA rest k

/-- Keys of a `dict` modelled as a pair list. -/
def keysOf {α : Type} (d : List (String × α)) : List String :=
  d.map (fun p => p.1)

/-- The character loop of `_split_top_level_union` from `diff/semantic.py`:
track bracket depth, split on top-level `|`, keep everything else in the
current buffer. -/
def splitUnionLoop : List Char → Int → List Char → List String → List String
  | [], _, buf, parts =>
    if buf.isEmpty then parts.reverse
    else ((String.mk buf.reverse) :: parts).reverse
  | c :: rest, depth, buf, parts =>
    let depth' :=
      if c == '[' then depth + 1 else if c == ']' then depth - 1 else depth
    if c == '|' && depth' == 0 then
      splitUnionLoop rest depth' [] ((String.mk buf.reverse) :: parts)
    else splitUnionLoop rest depth' (c :: buf) parts

/-- `_split_top_level_union` from `diff/semantic.py`: the set of nonempty
top-level alternatives of an annotation string (a Python `set`, modelled as
its canonical sorted duplicate-free list). -/
def split_top_level_union (s : String) : List String :=
  sortDedupStrs ((splitUnionLoop s.data 0 [] []).filter (fun p => !(p == "")))

/-- `_classify_type_change` from `diff/semantic.py`: equal alternative sets
are `"same"`, a subset old-to-new is `"widened"`, a subset new-to-old is
`"narrowed"`, anything else `"changed"`. -/
def classify_type_change (old new : String) : String :=
  let old_set := split_top_level_union old
  let new_set := split_top_level_union new
  if old_set == new_set then "same"
  else if old_set.all (fun p => new_set.contains p) then "widened"
  else if new_set.all (fun p => old_set.contains p) then "narrowed"
  else "changed"

/-- The common-field body of `semantic_diff` from `diff/semantic.py`: the
requiredness-transition entry (if any) followed by the type-change entry (if
the classification is not `"same"`), with `"widened"` non-breaking and
`"narrowed"`/`"changed"` breaking. -/
def common_field_entries (c f : String) (old_field new_field : ModelField) :
    List DiffEntry :=
  (if old_field.required && !new_field.required then
    [⟨"non-breaking", c, some f, "Field changed from required to optional"⟩]
  else if !old_field.required && new_field.required then
    [⟨"breaking", c, some f, "Field changed from optional to required"⟩]
  else []) ++
  (let kind := classify_type_change old_field.annot new_field.annot
   if kind == "same" then []
   else
     [⟨if kind == "widened" then "non-breaking" else "breaking", c, some f,
       "Type " ++ kind ++ ": " ++ old_field.annot ++ " -> " ++ new_field.annot⟩])

/-- The per-class body of `semantic_diff` from `diff/semantic.py`: removed
fields, added fields (severity by requiredness), then the common fields in
sorted order through `common_field_entries`. -/
def class_diff (c : String) (old_fields new_fields : List (String × ModelField)) :
    List DiffEntry :=
  let old_names := keysOf old_fields
  let new_names := keysOf new_fields
  (sortDedupStrs (old_names.filter (fun f => !(new_names.contains f)))).map
    (fun f => ⟨"breaking", c, some f, "Field removed"⟩) ++
  (sortDedupStrs (new_names.filter (fun f => !(old_names.contains f)))).map
    (fun f =>
      let mf := (lookupA new_fields f).getD ⟨"", false⟩
      ⟨if mf.required then "breaking" else "non-breaking", c, some f,
        "New " ++ (if mf.required then "required" else "optional") ++ " field"⟩) ++
  (sortDedupStrs (old_names.filter (fun f => new_names.contains f))).flatMap
    (fun f =>
      common_field_entries c f ((lookupA old_fields f).getD ⟨"", false⟩)
        ((lookupA new_fields f).getD ⟨"", false⟩))

/-- `semantic_diff` from `diff/semantic.py`: removed classes, added classes,
then the classes in both schemas, in sorted order.  (The `dict` indexings
`old.classes[name]` / `new.classes[name]` of the source always succeed on the
iterated names; the `.getD` defaults are unreachable.) -/
def semantic_diff (old new : ModelSchema) : List DiffEntry :=
  let old_classes := keysOf old
  let new_classes := keysOf new
  (sortDedupStrs (old_classes.filter (fun c => !(new_classes.contains c)))).map
    (fun c => ⟨"breaking", c, none, "Model removed"⟩) ++
  (sortDedupStrs (new_classes.filter (fun c => !(old_classes.contains c)))).map
    (fun c => ⟨"non-breaking", c, none, "Model added"⟩) ++
  (sortDedupStrs (old_classes.filter (fun c => new_classes.contains c))).flatMap
    (fun c => class_diff c ((lookupA old c).getD []) ((lookupA new c).getD []))

/-- Non-membership of a node in a node list, under structural equality. -/
def notMemN (x : TypeNode) : List TypeNode → Bool
  | [] => true
  | y :: ys => !(beqN x y) && notMemN x ys

/-- Pairwise distinctness of a node list, under structural equality. -/
def distinctOpts : List TypeNode → Bool
  | [] => true
  | o :: os => notMemN o os && distinctOpts os

mutual

/-- The `Union` invariant of the data model, checked recursively: every
`Union` in the node has at least 2 pairwise distinct options, none of which
is itself a `Union` or `Any`. -/
def goodN : TypeNode → Bool
  | .array t => goodN t
  | .object fs _ => goodFields fs
  | .union opts =>
    goodOptions opts && distinctOpts opts && decide (2 ≤ opts.length)
  | _ => true

/-- `goodN` over the field types of an object. -/
def goodFields : List FieldT → Bool
  | [] => true
  | (_, t, _, _, _) :: rest => goodN t && goodFields rest

/-- `goodN` over union options, with the member-shape conditions. -/
def goodOptions : List TypeNode → Bool
  | [] => true
  | o :: os => !o.isUnion && !o.isAny && goodN o && goodOptions os

end

/-- Strict ascending order of an object field list by name. -/
def strictSortedKeys : List FieldT → Bool
  | [] => true
  | [_] => true
  | x :: y :: rest =>
    (match cmpStr x.1 y.1 with
     | .lt => true
     | _ => false) && strictSortedKeys (y :: rest)

mutual

/-- The canonical-representation invariant of the data model: every object
field list in the node is strictly sorted by field name (as
`ObjectType.from_mapping` produces and the spec's data model requires). -/
def canonicalN : TypeNode → Bool
  | .array t => canonicalN t
  | .object fs _ => strictSortedKeys fs && canonicalFields fs
  | .union opts => canonicalOpts opts
  | _ => true

/-- `canonicalN` over the field types of an object. -/
def canonicalFields : List FieldT → Bool
  | [] => true
  | (_, t, _, _, _) :: rest => canonicalN t && canonicalFields rest

/-- `canonicalN` over union options. -/
def canonicalOpts : List TypeNode → Bool
  | [] => true
  | o :: os => canonicalN o && canonicalOpts os

end

/-- A semantic-diff entry reporting a type change (its message opens with
`Type `). -/
def isTypeEntry (e : DiffEntry) : Bool :=
  e.message.data.take 5 == "Type ".data

/-- The three facts a triple of comparison outcomes `(x compared to y,
y compared to z, x compared to z)` must satisfy for lexicographic reasoning:
transitivity of `lt` and substitution along `eq`. -/
def TransTriple (xy yz xz : Ordering) : Prop :=
  (xy = .lt → yz = .lt → xz = .lt) ∧ (xy = .eq → xz = yz) ∧ (yz = .eq → xz = xy)

theorem cmpNat_eq_iff (a b : Nat) : cmpNat a b = .eq ↔ a = b := by
  unfold cmpNat
  split
  · constructor
    · intro h
      cases h
    · omega
  · split
    · constructor
      · intro h
        cases h
      · omega
    · simp
      omega

theorem cmpNat_lt_iff (a b : Nat) : cmpNat a b = .lt ↔ a < b := by
  unfold cmpNat
  split
  · simp
    omega
  · split <;> simp <;> omega

theorem cmpNat_swap (a b : Nat) : (cmpNat a b).swap = cmpNat b a := by
  unfold cmpNat
  rcases Nat.lt_trichotomy a b with h | h | h
  · have h2 : ¬ b < a := by omega
    simp [h, h2, Ordering.swap]
  · subst h
    simp [Ordering.swap]
  · have h2 : ¬ a < b := by omega
    simp [h, h2, Ordering.swap]

theorem cmpInt_eq_iff (a b : Int) : cmpInt a b = .eq ↔ a = b := by
  unfold cmpInt
  split
  · constructor
    · intro h
      cases h
    · omega
  · split
    · constructor
      · intro h
        cases h
      · omega
    · simp
      omega

theorem cmpInt_lt_iff (a b : Int) : cmpInt a b = .lt ↔ a < b := by
  unfold cmpInt
  split
  · simp
    omega
  · split <;> simp <;> omega

theorem cmpInt_swap (a b : Int) : (cmpInt a b).swap = cmpInt b a := by
  unfold cmpInt
  rcases Int.lt_trichotomy a b with h | h | h
  · have h2 : ¬ b < a := by omega
    simp [h, h2, Ordering.swap]
  · subst h
    simp [Ordering.swap]
  · have h2 : ¬ a < b := by omega
    simp [h, h2, Ordering.swap]

theorem char_toNat_inj {a b : Char} (h : a.toNat = b.toNat) : a = b := by
  have hv : a.val = b.val := by
    have h2 := h
    unfold Char.toNat at h2
    exact UInt32.toNat.inj h2
  exact Char.ext hv

theorem cmpCharL_eq_iff (a b : List Char) : cmpCharL a b = .eq ↔ a = b := by
  induction a generalizing b with
  | nil => cases b <;> simp [cmpCharL]
  | cons x xs ih =>
    cases b with
    | nil => simp [cmpCharL]
    | cons y ys =>
      rw [cmpCharL]
      rw [Ordering.then_eq_eq]
      rw [cmpNat_eq_iff, ih]
      constructor
      · intro h
        rw [char_toNat_inj h.1, h.2]
      · intro h
        cases h
        exact ⟨rfl, rfl⟩

theorem cmpCharL_swap (a b : List Char) : (cmpCharL a b).swap = cmpCharL b a := by
  induction a generalizing b with
  | nil => cases b <;> simp [cmpCharL, Ordering.swap]
  | cons x xs ih =>
    cases b with
    | nil => simp [cmpCharL, Ordering.swap]
    | cons y ys =>
      rw [cmpCharL, cmpCharL, Ordering.swap_then, cmpNat_swap, ih]

theorem cmpCharL_lt_trans {a b c : List Char} (h1 : cmpCharL a b = .lt)
    (h2 : cmpCharL b c = .lt) : cmpCharL a c = .lt := by
  induction a generalizing b c with
  | nil =>
    cases b with
    | nil => exact absurd h1 (by simp [cmpCharL])
    | cons y ys =>
      cases c with
      | nil => exact absurd h2 (by simp [cmpCharL])
      | cons z zs => simp [cmpCharL]
  | cons x xs ih =>
    cases b with
    | nil => exact absurd h1 (by simp [cmpCharL])
    | cons y ys =>
      cases c with
      | nil => exact absurd h2 (by simp [cmpCharL])
      | cons z zs =>
        rw [cmpCharL] at h1 h2 ⊢
        rw [Ordering.then_eq_lt] at h1 h2 ⊢
        rcases h1 with h1 | ⟨h1e, h1r⟩ <;> rcases h2 with h2 | ⟨h2e, h2r⟩
        · exact Or.inl ((cmpNat_lt_iff _ _).mpr
            (Nat.lt_trans ((cmpNat_lt_iff _ _).mp h1) ((cmpNat_lt_iff _ _).mp h2)))
        · rw [cmpNat_eq_iff] at h2e
          exact Or.inl (by rw [← h2e]; exact h1)
        · rw [cmpNat_eq_iff] at h1e
          exact Or.inl (by rw [h1e]; exact h2)
        · rw [cmpNat_eq_iff] at h1e h2e
          exact Or.inr ⟨by rw [h1e, h2e, cmpNat_eq_iff], ih h1r h2r⟩

theorem cmpStr_eq_iff (a b : String) : cmpStr a b = .eq ↔ a = b := by
  rw [cmpStr, cmpCharL_eq_iff]
  constructor
  · intro h
    exact String.ext h
  · intro h
    rw [h]

theorem cmpStr_swap (a b : String) : (cmpStr a b).swap = cmpStr b a :=
  cmpCharL_swap a.data b.data

theorem cmpStr_lt_trans {a b c : String} (h1 : cmpStr a b = .lt)
    (h2 : cmpStr b c = .lt) : cmpStr a c = .lt :=
  cmpCharL_lt_trans h1 h2

theorem cmpStrList_eq_iff (a b : List String) : cmpStrList a b = .eq ↔ a = b := by
  induction a generalizing b with
  | nil => cases b <;> simp [cmpStrList]
  | cons x xs ih =>
    cases b with
    | nil => simp [cmpStrList]
    | cons y ys =>
      rw [cmpStrList, Ordering.then_eq_eq, cmpStr_eq_iff, ih]
      constructor
      · intro h
        rw [h.1, h.2]
      · intro h
        injection h with h1 h2
        exact ⟨h1, h2⟩

theorem cmpStrList_swap (a b : List String) :
    (cmpStrList a b).swap = cmpStrList b a := by
  induction a generalizing b with
  | nil => cases b <;> simp [cmpStrList, Ordering.swap]
  | cons x xs ih =>
    cases b with
    | nil => simp [cmpStrList, Ordering.swap]
    | cons y ys =>
      rw [cmpStrList, cmpStrList, Ordering.swap_then, cmpStr_swap, ih]

theorem cmpStrList_lt_trans {a b c : List String} (h1 : cmpStrList a b = .lt)
    (h2 : cmpStrList b c = .lt) : cmpStrList a c = .lt := by
  induction a generalizing b c with
  | nil =>
    cases b with
    | nil => exact absurd h1 (by simp [cmpStrList])
    | cons y ys =>
      cases c with
      | nil => exact absurd h2 (by simp [cmpStrList])
      | cons z zs => simp [cmpStrList]
  | cons x xs ih =>
    cases b with
    | nil => exact absurd h1 (by simp [cmpStrList])
    | cons y ys =>
      cases c with
      | nil => exact absurd h2 (by simp [cmpStrList])
      | cons z zs =>
        rw [cmpStrList] at h1 h2 ⊢
        rw [Ordering.then_eq_lt] at h1 h2 ⊢
        rcases h1 with h1 | ⟨h1e, h1r⟩ <;> rcases h2 with h2 | ⟨h2e, h2r⟩
        · exact Or.inl (cmpStr_lt_trans h1 h2)
        · rw [cmpStr_eq_iff] at h2e
          exact Or.inl (by rw [← h2e]; exact h1)
        · rw [cmpStr_eq_iff] at h1e
          exact Or.inl (by rw [h1e]; exact h2)
        · rw [cmpStr_eq_iff] at h1e h2e
          exact Or.inr ⟨by rw [h1e, h2e, cmpStr_eq_iff], ih h1r h2r⟩

mutual

theorem cmpN_eq_iff : ∀ (a b : TypeNode), cmpN a b = .eq ↔ a = b := by
  intro a b
  cases a <;> cases b
  case array.array x y => simp [cmpN, cmpN_eq_iff x y]
  case object.object fx sx fy sy =>
    simp [cmpN, Ordering.then_eq_eq, cmpInt_eq_iff, cmpFields_eq_iff fx fy]
  case union.union ox oy => simp [cmpN, cmpOpts_eq_iff ox oy]
  all_goals simp [cmpN, TypeNode.tag, cmpNat]
termination_by a _ => sizeOf a
decreasing_by
  all_goals simp_arith

theorem cmpFields_eq_iff : ∀ (a b : List FieldT), cmpFields a b = .eq ↔ a = b := by
  intro a b
  match a, b with
  | [], [] => simp [cmpFields]
  | [], _ :: _ => simp [cmpFields]
  | _ :: _, [] => simp [cmpFields]
  | x :: xs, y :: ys =>
    obtain ⟨n1, t1, rc1, sc1, ex1⟩ := x
    obtain ⟨n2, t2, rc2, sc2, ex2⟩ := y
    rw [cmpFields]
    rw [Ordering.then_eq_eq, Ordering.then_eq_eq, Ordering.then_eq_eq,
      Ordering.then_eq_eq, Ordering.then_eq_eq]
    rw [cmpStr_eq_iff, cmpN_eq_iff t1 t2, cmpInt_eq_iff, cmpInt_eq_iff,
      cmpStrList_eq_iff, cmpFields_eq_iff xs ys]
    constructor
    · intro h
      obtain ⟨⟨ha, hb, hc, hd, he⟩, hf⟩ := h
      simp only at ha hc hd he
      rw [ha, hb, hc, hd, he, hf]
    · intro h
      cases h
      exact ⟨⟨rfl, rfl, rfl, rfl, rfl⟩, rfl⟩
termination_by a _ => sizeOf a
decreasing_by
  all_goals simp_arith

theorem cmpOpts_eq_iff : ∀ (a b : List TypeNode), cmpOpts a b = .eq ↔ a = b := by
  intro a b
  match a, b with
  | [], [] => simp [cmpOpts]
  | [], _ :: _ => simp [cmpOpts]
  | _ :: _, [] => simp [cmpOpts]
  | x :: xs, y :: ys =>
    rw [cmpOpts]
    rw [Ordering.then_eq_eq, cmpN_eq_iff x y, cmpOpts_eq_iff xs ys]
    constructor
    · intro h
      rw [h.1, h.2]
    · intro h
      cases h
      exact ⟨rfl, rfl⟩
termination_by a _ => sizeOf a
decreasing_by
  all_goals simp_arith

end

theorem then_tt {x1 y1 z1 x2 y2 z2 : Ordering} (h1 : TransTriple x1 y1 z1)
    (h2 : TransTriple x2 y2 z2) :
    TransTriple (x1.then x2) (y1.then y2) (z1.then z2) := by
  obtain ⟨ha, hb, hc⟩ := h1
  obtain ⟨hd, he, hf⟩ := h2
  refine ⟨?_, ?_, ?_⟩
  · intro hx hy
    rw [Ordering.then_eq_lt] at hx hy ⊢
    rcases hx with hx | ⟨hx1, hx2⟩ <;> rcases hy with hy | ⟨hy1, hy2⟩
    · exact Or.inl (ha hx hy)
    · exact Or.inl (by rw [hc hy1]; exact hx)
    · exact Or.inl (by rw [hb hx1]; exact hy)
    · have hz1 : z1 = .eq := by rw [hb hx1]; exact hy1
      exact Or.inr ⟨hz1, hd hx2 hy2⟩
  · intro hx
    rw [Ordering.then_eq_eq] at hx
    rw [hb hx.1, he hx.2]
  · intro hy
    rw [Ordering.then_eq_eq] at hy
    rw [hc hy.1, hf hy.2]

theorem cmpNat_tt (a b c : Nat) :
    TransTriple (cmpNat a b) (cmpNat b c) (cmpNat a c) := by
  refine ⟨?_, ?_, ?_⟩
  · intro h1 h2
    rw [cmpNat_lt_iff] at h1 h2 ⊢
    omega
  · intro h
    rw [cmpNat_eq_iff] at h
    rw [h]
  · intro h
    rw [cmpNat_eq_iff] at h
    rw [h]

theorem cmpInt_tt (a b c : Int) :
    TransTriple (cmpInt a b) (cmpInt b c) (cmpInt a c) := by
  refine ⟨?_, ?_, ?_⟩
  · intro h1 h2
    rw [cmpInt_lt_iff] at h1 h2 ⊢
    omega
  · intro h
    rw [cmpInt_eq_iff] at h
    rw [h]
  · intro h
    rw [cmpInt_eq_iff] at h
    rw [h]

theorem cmpStr_tt (a b c : String) :
    TransTriple (cmpStr a b) (cmpStr b c) (cmpStr a c) := by
  refine ⟨?_, ?_, ?_⟩
  · exact cmpStr_lt_trans
  · intro h
    rw [cmpStr_eq_iff] at h
    rw [h]
  · intro h
    rw [cmpStr_eq_iff] at h
    rw [h]

theorem cmpStrList_tt (a b c : List String) :
    TransTriple (cmpStrList a b) (cmpStrList b c) (cmpStrList a c) := by
  refine ⟨?_, ?_, ?_⟩
  · exact cmpStrList_lt_trans
  · intro h
    rw [cmpStrList_eq_iff] at h
    rw [h]
  · intro h
    rw [cmpStrList_eq_iff] at h
    rw [h]

mutual

theorem cmpN_swap : ∀ (a b : TypeNode), (cmpN a b).swap = cmpN b a := by
  intro a b
  cases a <;> cases b
  case array.array x y =>
    simp only [cmpN]
    exact cmpN_swap x y
  case object.object fx sx fy sy =>
    simp only [cmpN, Ordering.swap_then]
    rw [cmpFields_swap fx fy, cmpInt_swap]
  case union.union ox oy =>
    simp only [cmpN]
    exact cmpOpts_swap ox oy
  all_goals simp [cmpN, TypeNode.tag, cmpNat, Ordering.swap]
termination_by a _ => sizeOf a
decreasing_by
  all_goals simp_arith

theorem cmpFields_swap : ∀ (a b : List FieldT),
    (cmpFields a b).swap = cmpFields b a := by
  intro a b
  match a, b with
  | [], [] => simp [cmpFields, Ordering.swap]
  | [], _ :: _ => simp [cmpFields, Ordering.swap]
  | _ :: _, [] => simp [cmpFields, Ordering.swap]
  | x :: xs, y :: ys =>
    obtain ⟨n1, t1, rc1, sc1, ex1⟩ := x
    obtain ⟨n2, t2, rc2, sc2, ex2⟩ := y
    simp only [cmpFields, Ordering.swap_then]
    rw [cmpStr_swap, cmpN_swap t1 t2, cmpInt_swap, cmpInt_swap,
      cmpStrList_swap, cmpFields_swap xs ys]
termination_by a _ => sizeOf a
decreasing_by
  all_goals simp_arith

theorem cmpOpts_swap : ∀ (a b : List TypeNode),
    (cmpOpts a b).swap = cmpOpts b a := by
  intro a b
  match a, b with
  | [], [] => simp [cmpOpts, Ordering.swap]
  | [], _ :: _ => simp [cmpOpts, Ordering.swap]
  | _ :: _, [] => simp [cmpOpts, Ordering.swap]
  | x :: xs, y :: ys =>
    simp only [cmpOpts, Ordering.swap_then]
    rw [cmpN_swap x y, cmpOpts_swap xs ys]
termination_by a _ => sizeOf a
decreasing_by
  all_goals simp_arith

end

mutual

theorem cmpN_tt : ∀ (a b c : TypeNode),
    TransTriple (cmpN a b) (cmpN b c) (cmpN a c) := by
  intro a b c
  cases a <;> cases b <;> cases c
  case array.array.array x y z =>
    simp only [cmpN]
    exact cmpN_tt x y z
  case object.object.object fx sx fy sy fz sz =>
    simp only [cmpN]
    exact then_tt (cmpFields_tt fx fy fz) (cmpInt_tt sx sy sz)
  case union.union.union ox oy oz =>
    simp only [cmpN]
    exact cmpOpts_tt ox oy oz
  all_goals
    simp only [cmpN, TypeNode.tag]
    refine ⟨?_, ?_, ?_⟩ <;> intros <;>
      first
      | rfl
      | (rename_i h
         exact absurd h (by decide))
      | (rename_i h1 h2
         exact absurd h1 (by decide))
termination_by a _ _ => sizeOf a
decreasing_by
  all_goals simp_arith

theorem cmpFields_tt : ∀ (a b c : List FieldT),
    TransTriple (cmpFields a b) (cmpFields b c) (cmpFields a c) := by
  intro a b c
  cases a <;> cases b <;> cases c
  case cons.cons.cons x xs y ys z zs =>
    obtain ⟨n1, t1, rc1, sc1, ex1⟩ := x
    obtain ⟨n2, t2, rc2, sc2, ex2⟩ := y
    obtain ⟨n3, t3, rc3, sc3, ex3⟩ := z
    simp only [cmpFields]
    exact then_tt
      (then_tt (cmpStr_tt n1 n2 n3)
        (then_tt (cmpN_tt t1 t2 t3)
          (then_tt (cmpInt_tt rc1 rc2 rc3)
            (then_tt (cmpInt_tt sc1 sc2 sc3)
              (cmpStrList_tt ex1 ex2 ex3)))))
      (cmpFields_tt xs ys zs)
  all_goals refine ⟨?_, ?_, ?_⟩ <;> intros <;> simp_all [cmpFields]
termination_by a _ _ => sizeOf a
decreasing_by
  all_goals simp_arith

theorem cmpOpts_tt : ∀ (a b c : List TypeNode),
    TransTriple (cmpOpts a b) (cmpOpts b c) (cmpOpts a c) := by
  intro a b c
  cases a <;> cases b <;> cases c
  case cons.cons.cons x xs y ys z zs =>
    simp only [cmpOpts]
    exact then_tt (cmpN_tt x y z) (cmpOpts_tt xs ys zs)
  all_goals refine ⟨?_, ?_, ?_⟩ <;> intros <;> simp_all [cmpOpts]
termination_by a _ _ => sizeOf a
decreasing_by
  all_goals simp_arith

end

theorem beqN_iff (a b : TypeNode) : beqN a b = true ↔ a = b := by
  unfold beqN
  cases hc : cmpN a b
  · simp only []
    rw [← cmpN_eq_iff a b, hc]
    simp
  · simp only []
    rw [← cmpN_eq_iff a b, hc]
    simp
  · simp only []
    rw [← cmpN_eq_iff a b, hc]
    simp

theorem beqN_refl (a : TypeNode) : beqN a a = true :=
  (beqN_iff a a).mpr rfl

theorem beqN_false_symm {a b : TypeNode} (h : beqN a b = false) :
    beqN b a = false := by
  by_contra hb
  have hb2 : beqN b a = true := by
    cases hcc : beqN b a
    · exact absurd hcc hb
    · rfl
  have : b = a := (beqN_iff b a).mp hb2
  subst this
  rw [beqN_refl] at h
  cases h

theorem cmpKey_eq_iff (a b : TypeNode) : cmpKey a b = .eq ↔ a = b := by
  unfold cmpKey
  rw [Ordering.then_eq_eq, cmpStr_eq_iff, cmpN_eq_iff]
  constructor
  · intro h
    exact h.2
  · intro h
    subst h
    exact ⟨rfl, rfl⟩

theorem cmpKey_swap (a b : TypeNode) : (cmpKey a b).swap = cmpKey b a := by
  unfold cmpKey
  rw [Ordering.swap_then, cmpStr_swap, cmpN_swap]

theorem cmpKey_tt (a b c : TypeNode) :
    TransTriple (cmpKey a b) (cmpKey b c) (cmpKey a c) :=
  then_tt (cmpStr_tt _ _ _) (cmpN_tt a b c)

theorem cmpKey_lt_asymm {a b : TypeNode} (h : cmpKey a b = .lt) :
    cmpKey b a = .gt := by
  rw [← cmpKey_swap, h]
  rfl

theorem cmpStr_lt_asymm {a b : String} (h : cmpStr a b = .lt) :
    cmpStr b a = .gt := by
  rw [← cmpStr_swap, h]
  rfl

theorem insStrD_comm_lt {x y : String} (hxy : cmpStr x y = .lt) :
    ∀ (l : List String), insStrD x (insStrD y l) = insStrD y (insStrD x l) := by
  have hyx : cmpStr y x = .gt := cmpStr_lt_asymm hxy
  intro l
  induction l with
  | nil =>
    simp only [insStrD, hxy, hyx]
  | cons a as ih =>
    cases hya : cmpStr y a
    · have hxa : cmpStr x a = .lt := (cmpStr_tt x y a).1 hxy hya
      simp only [insStrD, hya, hxa, hxy, hyx]
    · have hy : y = a := (cmpStr_eq_iff y a).mp hya
      subst hy
      have hxa : cmpStr x y = .lt := hxy
      simp only [insStrD, hya, hxa, hxy, hyx]
    · cases hxa : cmpStr x a
      · simp only [insStrD, hya, hxa, hyx]
      · have hx : x = a := (cmpStr_eq_iff x a).mp hxa
        subst hx
        simp only [insStrD, hya, hxa, hyx]
      · simp only [insStrD, hya, hxa, hyx, ih]

theorem insStrD_comm (x y : String) (l : List String) :
    insStrD x (insStrD y l) = insStrD y (insStrD x l) := by
  cases hxy : cmpStr x y
  · exact insStrD_comm_lt hxy l
  · have h : x = y := (cmpStr_eq_iff x y).mp hxy
    subst h
    rfl
  · have hyx : cmpStr y x = .lt := by
      rw [← cmpStr_swap] at hxy
      cases hc : cmpStr y x <;> rw [hc] at hxy <;> first | rfl | cases hxy
    exact (insStrD_comm_lt hyx l).symm

theorem insStrD_foldr (x : String) (l : List String) (A : List String) :
    insStrD x (l.foldr insStrD A) = l.foldr insStrD (insStrD x A) := by
  induction l with
  | nil => rfl
  | cons a as ih =>
    simp only [List.foldr_cons]
    rw [insStrD_comm x a, ih]

theorem foldr_insStrD_swap (xs ys : List String) (A : List String) :
    xs.foldr insStrD (ys.foldr insStrD A) = ys.foldr insStrD (xs.foldr insStrD A) := by
  induction xs with
  | nil => rfl
  | cons a as ih =>
    simp only [List.foldr_cons]
    rw [ih, insStrD_foldr]

theorem sortDedupStrs_append_swap (xs ys : List String) :
    sortDedupStrs (xs ++ ys) = sortDedupStrs (ys ++ xs) := by
  unfold sortDedupStrs
  rw [List.foldr_append, List.foldr_append]
  exact foldr_insStrD_swap xs ys []

theorem insNodeD_comm_lt {x y : TypeNode} (hxy : cmpKey x y = .lt) :
    ∀ (l : List TypeNode), insNodeD x (insNodeD y l) = insNodeD y (insNodeD x l) := by
  have hyx : cmpKey y x = .gt := cmpKey_lt_asymm hxy
  intro l
  induction l with
  | nil =>
    simp only [insNodeD, hxy, hyx]
  | cons a as ih =>
    cases hya : cmpKey y a
    · have hxa : cmpKey x a = .lt := (cmpKey_tt x y a).1 hxy hya
      simp only [insNodeD, hya, hxa, hxy, hyx]
    · have hy : y = a := (cmpKey_eq_iff y a).mp hya
      subst hy
      have hxa : cmpKey x y = .lt := hxy
      simp only [insNodeD, hya, hxa, hxy, hyx]
    · cases hxa : cmpKey x a
      · simp only [insNodeD, hya, hxa, hyx]
      · have hx : x = a := (cmpKey_eq_iff x a).mp hxa
        subst hx
        simp only [insNodeD, hya, hxa, hyx]
      · simp only [insNodeD, hya, hxa, hyx, ih]

theorem insNodeD_comm (x y : TypeNode) (l : List TypeNode) :
    insNodeD x (insNodeD y l) = insNodeD y (insNodeD x l) := by
  cases hxy : cmpKey x y
  · exact insNodeD_comm_lt hxy l
  · have h : x = y := (cmpKey_eq_iff x y).mp hxy
    subst h
    rfl
  · have hyx : cmpKey y x = .lt := by
      rw [← cmpKey_swap] at hxy
      cases hc : cmpKey y x <;> rw [hc] at hxy <;> first | rfl | cases hxy
    exact (insNodeD_comm_lt hyx l).symm

theorem insNodeD_foldr (x : TypeNode) (l : List TypeNode) (A : List TypeNode) :
    insNodeD x (l.foldr insNodeD A) = l.foldr insNodeD (insNodeD x A) := by
  induction l with
  | nil => rfl
  | cons a as ih =>
    simp only [List.foldr_cons]
    rw [insNodeD_comm x a, ih]

theorem foldr_insNodeD_swap (xs ys : List TypeNode) (A : List TypeNode) :
    xs.foldr insNodeD (ys.foldr insNodeD A) = ys.foldr insNodeD (xs.foldr insNodeD A) := by
  induction xs with
  | nil => rfl
  | cons a as ih =>
    simp only [List.foldr_cons]
    rw [ih, insNodeD_foldr]

theorem sortDedupNodes_append_swap (xs ys : List TypeNode) :
    sortDedupNodes (xs ++ ys) = sortDedupNodes (ys ++ xs) := by
  unfold sortDedupNodes
  rw [List.foldr_append, List.foldr_append]
  exact foldr_insNodeD_swap xs ys []

theorem lookupF_sizeOf {fs : List FieldT} {nm : String} {t : FieldT}
    (h : lookupF fs nm = some t) : sizeOf t.2.1 < sizeOf fs := by
  induction fs with
  | nil => simp [lookupF] at h
  | cons hd tl ih =>
    rw [lookupF] at h
    by_cases hb : hd.1 == nm
    · simp [hb] at h
      subst h
      obtain ⟨t1, t2, t3, t4, t5⟩ := hd
      simp_arith
    · simp [hb] at h
      have := ih h
      simp_arith
      omega

theorem flatten_cons (x : TypeNode) (rest : List TypeNode) :
    flatten_union_options (x :: rest) =
      flatten_union_options [x] ++ flatten_union_options rest := by
  cases x <;> simp [flatten_union_options]

theorem merge_examples_comm (a b : List String) (limit : Nat) :
    merge_examples a b limit = merge_examples b a limit := by
  unfold merge_examples
  rw [sortDedupStrs_append_swap]

theorem simplify_union_pair_swap (a b : TypeNode) (s : Bool) :
    simplify_union [a, b] s = simplify_union [b, a] s := by
  unfold simplify_union
  rw [flatten_cons a [b], flatten_cons b [a]]
  simp only [List.any_append, Bool.or_comm, sortDedupNodes_append_swap]

theorem join_object_fields_comm (s : Bool) (total : Int) (lf rf : List FieldT)
    (hj : ∀ (nm : String) (t1 t2 : FieldT), lookupF lf nm = some t1 →
      lookupF rf nm = some t2 →
      join_types t1.2.1 t2.2.1 s = join_types t2.2.1 t1.2.1 s) :
    ∀ names, join_object_fields names lf rf total s =
      join_object_fields names rf lf total s := by
  intro names
  induction names with
  | nil => rw [join_object_fields, join_object_fields]
  | cons n rest ih =>
    rw [join_object_fields, join_object_fields]
    rw [ih]
    split <;> split
    all_goals try (simp_all; done)
    rename_i t1 t2 hL1 hL2 t2b t1b hR1 hR2
    have e1 : t1 = t1b := by
      rw [hL1] at hR2
      exact Option.some.inj hR2
    have e2 : t2 = t2b := by
      rw [hL2] at hR1
      exact Option.some.inj hR1
    subst e1
    subst e2
    rw [hj n t1 t2 hL1 hL2]
    rw [Int.add_comm, merge_examples_comm]

theorem join_types_comm_aux : ∀ (n : Nat) (l r : TypeNode) (s : Bool),
    sizeOf l + sizeOf r ≤ n → join_types l r s = join_types r l s := by
  intro n
  induction n using Nat.strong_induction_on with
  | _ n ih =>
    intro l r s hle
    by_cases hbe : beqN l r = true
    · have h := (beqN_iff l r).mp hbe
      subst h
      rfl
    · have hbe1 : beqN l r = false := by
        cases h : beqN l r
        · rfl
        · exact absurd h hbe
      have hbe2 : beqN r l = false := beqN_false_symm hbe1
      rw [join_types.eq_def l r s, join_types.eq_def r l s]
      rw [hbe1, hbe2]
      simp only [Bool.false_eq_true, if_false]
      by_cases hany : (l.isAny || r.isAny) = true
      · have hor : (r.isAny || l.isAny) = true := by
          rw [Bool.or_comm]
          exact hany
        simp [hany, hor]
      · have hany1 : (l.isAny || r.isAny) = false := by
          cases h : (l.isAny || r.isAny)
          · rfl
          · exact absurd h hany
        have hany2 : (r.isAny || l.isAny) = false := by
          rw [Bool.or_comm]
          exact hany1
        rw [hany1, hany2]
        simp only [Bool.false_eq_true, if_false]
        cases l <;> cases r <;>
          first
          | exact simplify_union_pair_swap _ _ _
          | (rename_i li ri
             show (join_types li ri s).array = (join_types ri li s).array
             have hrec : join_types li ri s = join_types ri li s := by
               apply ih (sizeOf li + sizeOf ri) _ li ri s le_rfl
               have h5 : sizeOf li + sizeOf ri <
                   sizeOf (TypeNode.array li) + sizeOf (TypeNode.array ri) := by
                 simp_arith
               omega
             simp only [hrec])
          | (rename_i lf ls rf rs
             show TypeNode.object
                 (sortPairsByKey
                   (join_object_fields (sortDedupStrs (fieldKeys lf ++ fieldKeys rf))
                     lf rf (ls + rs) s)) (ls + rs) =
               TypeNode.object
                 (sortPairsByKey
                   (join_object_fields (sortDedupStrs (fieldKeys rf ++ fieldKeys lf))
                     rf lf (rs + ls) s)) (rs + ls)
             have hnames : sortDedupStrs (fieldKeys lf ++ fieldKeys rf) =
                 sortDedupStrs (fieldKeys rf ++ fieldKeys lf) :=
               sortDedupStrs_append_swap _ _
             have htot : rs + ls = ls + rs := Int.add_comm rs ls
             have hj : ∀ (nm : String) (t1 t2 : FieldT), lookupF lf nm = some t1 →
                 lookupF rf nm = some t2 →
                 join_types t1.2.1 t2.2.1 s = join_types t2.2.1 t1.2.1 s := by
               intro nm t1 t2 h1 h2
               apply ih (sizeOf t1.2.1 + sizeOf t2.2.1) _ _ _ s le_rfl
               have hs1 := lookupF_sizeOf h1
               have hs2 := lookupF_sizeOf h2
               have hobj : sizeOf lf < sizeOf (TypeNode.object lf ls) := by
                 simp_arith
               have hobj2 : sizeOf rf < sizeOf (TypeNode.object rf rs) := by
                 simp_arith
               omega
             rw [hnames, htot, join_object_fields_comm s (ls + rs) lf rf hj])

theorem join_types_comm (l r : TypeNode) (s : Bool) :
    join_types l r s = join_types r l s :=
  join_types_comm_aux (sizeOf l + sizeOf r) l r s le_rfl

theorem join_types_idem (a : TypeNode) (s : Bool) : join_types a a s = a := by
  rw [join_types.eq_def a a s, beqN_refl]
  simp

/-- C1 counterexample: `join` is not associative.  Joining two one-field
objects first merges them into a two-field object, which then unions with
`Int`; joining the second object with `Int` first puts that object into a
union, and the first object then joins into the union un-merged. -/
theorem join_types_not_associative :
    join_types
        (join_types (.object [("a", .int, 1, 1, [])] 1)
          (.object [("b", .int, 1, 1, [])] 1) false)
        .int false ≠
      join_types (.object [("a", .int, 1, 1, [])] 1)
        (join_types (.object [("b", .int, 1, 1, [])] 1) .int false) false := by
  simp [join_types, join_object_fields, join_object_types, simplify_union,
    flatten_union_options, sortDedupNodes, insNodeD, cmpKey, cmpN, cmpOpts,
    cmpFields, cmpNat, cmpInt, cmpStr, cmpCharL, cmpStrList, beqN,
    instBEqTypeNode, TypeNode.tag, TypeNode.isAny, TypeNode.isUnion,
    type_sort_key, type_name, sortStrs, insStr, sortDedupStrs, insStrD,
    merge_examples, lookupF, fieldKeys, sortPairsByKey, insPairByKey,
    Ordering.then, List.contains, List.elem, List.erase, ANY, NULL, BOOL, INT,
    FLOAT, STR, DATETIME]

/-- C1 (amended): the join operation is commutative and idempotent for all
type nodes and either value of `strict_numbers` (associativity, the dropped
conjunct, fails — see the counterexample). -/
theorem join_types_commutative_idempotent :
    ∀ (a b : TypeNode) (strict_numbers : Bool),
      join_types a b strict_numbers = join_types b a strict_numbers ∧
      join_types a a strict_numbers = a :=
  fun a b s => ⟨join_types_comm a b s, join_types_idem a s⟩

/-- C4: an expected `Float` accepts an observed `Int` in drift compatibility
checking.  `_is_compatible` takes no `strict_numbers` parameter at all — the
flag exists only in the inference-time join — so the acceptance cannot depend
on it. -/
theorem float_accepts_int :
    is_compatible FLOAT INT = true := by
  simp [is_compatible, beqN, cmpN, TypeNode.tag, cmpNat, ANY, FLOAT, INT]

/-- C6: joining `Int` and `Float` yields `Float` when `strict_numbers` is
off and the canonical two-option union `Union[float, int]` (options sorted by
`type_sort_key`) when it is on, with the same result for both operand
orders. -/
theorem join_int_float_widening :
    join_types INT FLOAT false = FLOAT ∧
    join_types FLOAT INT false = FLOAT ∧
    join_types INT FLOAT true = .union [FLOAT, INT] ∧
    join_types FLOAT INT true = .union [FLOAT, INT] := by
  refine ⟨?_, ?_, ?_, ?_⟩ <;>
    simp [join_types, simplify_union, flatten_union_options, sortDedupNodes,
      insNodeD, cmpKey, cmpN, cmpNat, cmpStr, cmpCharL, beqN, instBEqTypeNode,
      TypeNode.tag, TypeNode.isAny, type_sort_key, type_name, Ordering.then,
      List.contains, List.elem, List.erase, ANY, INT, FLOAT]

/-- C5: after observing `{"id": 1, "name": "a"}` and then `{"id": 2}`, the
root is an object whose `id` field is required (`required_count =
sample_count = 2`) and whose `name` field is optional (`required_count = 1 <
sample_count = 2`). -/
theorem observe_required_optional_tracking :
    observe_many false none
        [.jobj [("id", .jint 1), ("name", .jstr "a")],
          .jobj [("id", .jint 2)]] =
      some (.object [("id", .int, 2, 2, ["1", "2"]),
        ("name", .str, 1, 2, ["'a'"])] 2) ∧
    (fieldOfTuple ("id", .int, 2, 2, ["1", "2"])).required = true ∧
    (fieldOfTuple ("name", .str, 1, 2, ["'a'"])).required = false := by
  refine ⟨?_, by decide, by decide⟩
  simp [observe_many, observe, infer_type, infer_items, infer_fields,
    show truncated_sample (pyRepr (.jint 1)) = "1" from rfl,
    show truncated_sample (pyRepr (.jint 2)) = "2" from rfl,
    show truncated_sample (pyRepr (.jstr "a")) = "'a'" from rfl,
    show is_datetime_string "a" = false from rfl,
    from_mapping, dictOf, dictInsert, sortPairsByKey,
    insPairByKey, join_types, join_object_fields, join_object_types,
    simplify_union, flatten_union_options, sortDedupNodes, insNodeD, cmpKey,
    cmpN, cmpOpts, cmpFields, cmpNat, cmpInt, cmpStr, cmpCharL, cmpStrList,
    beqN, instBEqTypeNode, TypeNode.tag, TypeNode.isAny, type_sort_key,
    type_name, sortStrs, insStr, sortDedupStrs, insStrD, merge_examples,
    lookupF, fieldKeys, Ordering.then, List.contains, List.elem, List.erase,
    ANY, NULL, BOOL, INT, FLOAT, STR, DATETIME]

theorem is_compatible_union_observed (expected : TypeNode) (opts : List TypeNode)
    (hany : expected ≠ .any) (hun : expected.isUnion = false)
    (heq : beqN expected (.union opts) = false) :
    is_compatible expected (.union opts) = false := by
  have hA : beqN expected ANY = false := by
    cases h : beqN expected ANY with
    | false => rfl
    | true => exact absurd ((beqN_iff _ _).1 h) (by simpa [ANY] using hany)
  have hUI : beqN (.union opts) INT = false := by
    cases h : beqN (.union opts) INT with
    | false => rfl
    | true =>
      have := (beqN_iff _ _).1 h
      simp [INT] at this
  cases expected with
  | any => exact absurd rfl hany
  | union o => simp [TypeNode.isUnion] at hun
  | null => rw [is_compatible.eq_def]; simp [hA, heq, hUI, is_same_scalar_family]
  | bool => rw [is_compatible.eq_def]; simp [hA, heq, hUI, is_same_scalar_family]
  | int => rw [is_compatible.eq_def]; simp [hA, heq, hUI, is_same_scalar_family]
  | float => rw [is_compatible.eq_def]; simp [hA, heq, hUI, is_same_scalar_family]
  | str => rw [is_compatible.eq_def]; simp [hA, heq, hUI, is_same_scalar_family]
  | datetime =>
    rw [is_compatible.eq_def]; simp [hA, heq, hUI, is_same_scalar_family]
  | array i => rw [is_compatible.eq_def]; simp [hA, heq, hUI, is_same_scalar_family]
  | object f s =>
    rw [is_compatible.eq_def]; simp [hA, heq, hUI, is_same_scalar_family]

theorem detect_drift_union_observed (expected : TypeNode) (opts : List TypeNode)
    (path : String)
    (hany : expected ≠ .any) (hun : expected.isUnion = false)
    (heq : beqN expected (.union opts) = false) :
    detect_drift expected (.union opts) path =
      [⟨path, type_name expected, type_name (.union opts), "type_mismatch"⟩] := by
  have hic := is_compatible_union_observed expected opts hany hun heq
  cases expected with
  | any => exact absurd rfl hany
  | union o => simp [TypeNode.isUnion] at hun
  | null => rw [detect_drift.eq_def]; simp [hic]
  | bool => rw [detect_drift.eq_def]; simp [hic]
  | int => rw [detect_drift.eq_def]; simp [hic]
  | float => rw [detect_drift.eq_def]; simp [hic]
  | str => rw [detect_drift.eq_def]; simp [hic]
  | datetime => rw [detect_drift.eq_def]; simp [hic]
  | array i => rw [detect_drift.eq_def]; simp [hic]
  | object f s => rw [detect_drift.eq_def]; simp [hic]

/-- C10: a non-`Any`, non-`Union` expected node that is not structurally equal
to an observed `Union` is never compatible with it — option-wise acceptance is
only checked when the *expected* side is the union — and `detect_drift` then
reports exactly one `type_mismatch` event, whose severity is `breaking`. -/
theorem union_observed_mismatch (expected : TypeNode) (opts : List TypeNode)
    (path : String)
    (hany : expected ≠ .any) (hun : expected.isUnion = false)
    (heq : beqN expected (.union opts) = false) :
    is_compatible expected (.union opts) = false ∧
    detect_drift expected (.union opts) path =
      [⟨path, type_name expected, type_name (.union opts), "type_mismatch"⟩] ∧
    drift_severity
        ⟨path, type_name expected, type_name (.union opts), "type_mismatch"⟩ =
      "breaking" :=
  ⟨is_compatible_union_observed expected opts hany hun heq,
   detect_drift_union_observed expected opts path hany hun heq,
   by simp [drift_severity, BREAKING_DRIFT_KINDS]⟩

/-- C10 witness: expected `Float` against observed `Union[float, int]` — every
option is individually float-compatible, yet the pair is incompatible and
drifts as a breaking `type_mismatch`. -/
theorem union_observed_mismatch_witness :
    is_compatible FLOAT (.union [FLOAT, INT]) = false ∧
    detect_drift FLOAT (.union [FLOAT, INT]) "root" =
      [⟨"root", type_name FLOAT, type_name (.union [FLOAT, INT]),
        "type_mismatch"⟩] ∧
    drift_severity
        ⟨"root", type_name FLOAT, type_name (.union [FLOAT, INT]),
          "type_mismatch"⟩ =
      "breaking" :=
  union_observed_mismatch FLOAT [FLOAT, INT] "root"
    (by simp [FLOAT]) rfl
    (by
      cases h : beqN FLOAT (.union [FLOAT, INT]) with
      | false => rfl
      | true =>
        have := (beqN_iff _ _).1 h
        simp [FLOAT] at this)

/-- C9 counterexample: `type_name` is not collision-free across distinct type
shapes — object names encode only the field-name set, so objects differing in
a field's type (here `int` versus `str` under field `a`) share the rendered
name `object<a>`. -/
theorem type_name_collision :
    type_name (.object [("a", .int, 1, 1, [])] 1) =
      type_name (.object [("a", .str, 1, 1, [])] 1) ∧
    TypeNode.object [("a", .int, 1, 1, [])] 1 ≠
      .object [("a", .str, 1, 1, [])] 1 := by
  refine ⟨rfl, ?_⟩
  intro h
  simp at h

/-- C9 (amended): `type_name` is total and stable by construction, and it is
collision-free on the non-composite nodes (tag ≤ 6: `Any`, `None`, `bool`,
`int`, `float`, `str`, `datetime`): two such nodes share a name exactly when
they are equal.  Full collision-freedom fails for objects — see the
counterexample. -/
theorem type_name_scalar_injective (a b : TypeNode)
    (ha : a.tag ≤ 6) (hb : b.tag ≤ 6) :
    type_name a = type_name b ↔ a = b := by
  cases a <;> cases b <;>
    first
      | (simp [TypeNode.tag] at ha; done)
      | (simp [TypeNode.tag] at hb; done)
      | simp [type_name]

/-- C9 witness: `int` and `float` are non-composite, and their names agree
exactly when the nodes do (here: neither). -/
theorem type_name_scalar_injective_witness :
    (INT.tag ≤ 6 ∧ FLOAT.tag ≤ 6) ∧
    (type_name INT = type_name FLOAT ↔ INT = FLOAT) :=
  ⟨by decide, type_name_scalar_injective INT FLOAT (by decide) (by decide)⟩

theorem mem_insStrD (x y : String) (l : List String) :
    x ∈ insStrD y l ↔ x = y ∨ x ∈ l := by
  induction l with
  | nil => simp [insStrD]
  | cons hd tl ih =>
    rw [insStrD]
    cases hc : cmpStr y hd with
    | lt => simp
    | eq =>
      have hy : y = hd := (cmpStr_eq_iff _ _).1 hc
      subst hy
      simp
    | gt =>
      simp [ih]
      tauto

theorem pairwise_insStrD (y : String) (l : List String)
    (h : List.Pairwise (fun a b => cmpStr a b = .lt) l) :
    List.Pairwise (fun a b => cmpStr a b = .lt) (insStrD y l) := by
  induction l with
  | nil => simp [insStrD]
  | cons hd tl ih =>
    rw [insStrD]
    rcases List.pairwise_cons.1 h with ⟨hhd, htl⟩
    cases hc : cmpStr y hd with
    | lt =>
      refine List.pairwise_cons.2 ⟨?_, h⟩
      intro b hb
      rcases List.mem_cons.1 hb with rfl | hb'
      · exact hc
      · exact cmpStr_lt_trans hc (hhd b hb')
    | eq => exact h
    | gt =>
      refine List.pairwise_cons.2 ⟨?_, ih htl⟩
      intro b hb
      rcases (mem_insStrD b y tl).1 hb with rfl | hb'
      · have hsw := cmpStr_swap b hd
        rw [hc] at hsw
        exact hsw.symm
      · exact hhd b hb'

theorem pairwise_sortDedupStrs (l : List String) :
    List.Pairwise (fun a b => cmpStr a b = .lt) (sortDedupStrs l) := by
  induction l with
  | nil => simp [sortDedupStrs]
  | cons hd tl ih =>
    simp only [sortDedupStrs, List.foldr_cons] at ih ⊢
    exact pairwise_insStrD hd _ ih

theorem mem_sortDedupStrs (x : String) (l : List String) :
    x ∈ sortDedupStrs l ↔ x ∈ l := by
  induction l with
  | nil => simp [sortDedupStrs]
  | cons hd tl ih =>
    simp only [sortDedupStrs, List.foldr_cons] at ih ⊢
    rw [mem_insStrD]
    simp [ih]

theorem cmpStr_irrefl (a : String) : cmpStr a a = .eq :=
  (cmpStr_eq_iff a a).2 rfl

theorem pairwise_strs_ext (l : List String) :
    ∀ (m : List String),
      List.Pairwise (fun a b => cmpStr a b = .lt) l →
      List.Pairwise (fun a b => cmpStr a b = .lt) m →
      (∀ x, x ∈ l ↔ x ∈ m) → l = m := by
  induction l with
  | nil =>
    intro m _ _ h
    cases m with
    | nil => rfl
    | cons b m' =>
      have := (h b).2 (List.mem_cons_self b m')
      simp at this
  | cons a l' ih =>
    intro m hl hm h
    cases m with
    | nil =>
      have := (h a).1 (List.mem_cons_self a l')
      simp at this
    | cons b m' =>
      rcases List.pairwise_cons.1 hl with ⟨hal, hl'⟩
      rcases List.pairwise_cons.1 hm with ⟨hbm, hm'⟩
      have hab : a = b := by
        rcases List.mem_cons.1 ((h a).1 (List.mem_cons_self a l')) with rfl | ha'
        · rfl
        · rcases List.mem_cons.1 ((h b).2 (List.mem_cons_self b m')) with rfl | hb'
          · rfl
          · have h1 := hal b hb'
            have h2 := hbm a ha'
            have hsw := cmpStr_swap a b
            rw [h1] at hsw
            rw [h2] at hsw
            exact absurd hsw (by decide)
      subst hab
      have hnl : a ∉ l' := by
        intro hmem
        have := hal a hmem
        rw [cmpStr_irrefl] at this
        exact absurd this (by decide)
      have hnm : a ∉ m' := by
        intro hmem
        have := hbm a hmem
        rw [cmpStr_irrefl] at this
        exact absurd this (by decide)
      have htl : l' = m' := by
        apply ih m' hl' hm'
        intro x
        constructor
        · intro hx
          have hx2 : x ∈ a :: m' := (h x).1 (List.mem_cons_of_mem a hx)
          rcases List.mem_cons.1 hx2 with rfl | h1
          · exact absurd hx hnl
          · exact h1
        · intro hx
          have hx2 : x ∈ a :: l' := (h x).2 (List.mem_cons_of_mem a hx)
          rcases List.mem_cons.1 hx2 with rfl | h1
          · exact absurd hx hnm
          · exact h1
      rw [htl]

theorem pairwise_split_top_level_union (s : String) :
    List.Pairwise (fun a b => cmpStr a b = .lt) (split_top_level_union s) := by
  simp only [split_top_level_union]
  exact pairwise_sortDedupStrs _

theorem split_sets_eq_of_mutual_subset {o n : String}
    (h1 : ∀ p ∈ split_top_level_union o, p ∈ split_top_level_union n)
    (h2 : ∀ p ∈ split_top_level_union n, p ∈ split_top_level_union o) :
    split_top_level_union o = split_top_level_union n :=
  pairwise_strs_ext _ _ (pairwise_split_top_level_union o)
    (pairwise_split_top_level_union n)
    (fun x => ⟨fun h => h1 x h, fun h => h2 x h⟩)

theorem take_five_type_prefix (k s2 s3 s4 s5 : String) :
    ("Type " ++ k ++ s2 ++ s3 ++ s4 ++ s5).data.take 5 = "Type ".data := by
  simp only [String.data_append, List.append_assoc]
  rw [show (5 : Nat) = "Type ".data.length from rfl]
  exact List.take_left _ _

theorem isTypeEntry_type_entry (sev c : String) (f : Option String)
    (k s2 s3 s4 s5 : String) :
    isTypeEntry ⟨sev, c, f, "Type " ++ k ++ s2 ++ s3 ++ s4 ++ s5⟩ = true := by
  simp [isTypeEntry, take_five_type_prefix]

theorem common_field_entries_filter (c f : String) (of nf : ModelField) :
    (common_field_entries c f of nf).filter isTypeEntry =
      (if classify_type_change of.annot nf.annot == "same" then []
       else
         [⟨if classify_type_change of.annot nf.annot == "widened" then
             "non-breaking" else "breaking", c, some f,
           "Type " ++ classify_type_change of.annot nf.annot ++ ": " ++
             of.annot ++ " -> " ++ nf.annot⟩]) := by
  simp only [common_field_entries, List.filter_append]
  cases hor : of.required <;> cases hnr : nf.required <;>
    by_cases hk : (classify_type_change of.annot nf.annot == "same") = true <;>
      simp [hk, List.filter, isTypeEntry_type_entry,
        show isTypeEntry ⟨"non-breaking", c, some f,
          "Field changed from required to optional"⟩ = false from rfl,
        show isTypeEntry ⟨"breaking", c, some f,
          "Field changed from optional to required"⟩ = false from rfl]

/-- C8: for a field present in both schemas, the type-change entries of the
common-field diff body are governed by the sets of top-level `|`-alternatives
of the two annotation strings: equal sets yield none; a proper old-to-new
subset yields exactly one non-breaking `Type widened` entry; a proper
new-to-old subset exactly one breaking `Type narrowed` entry; and any pair
with neither inclusion exactly one breaking `Type changed` entry. -/
theorem classify_type_change_cases (c f : String) (old_field new_field : ModelField) :
    (split_top_level_union old_field.annot = split_top_level_union new_field.annot →
      (common_field_entries c f old_field new_field).filter isTypeEntry = []) ∧
    (split_top_level_union old_field.annot ≠ split_top_level_union new_field.annot →
      (∀ p ∈ split_top_level_union old_field.annot,
        p ∈ split_top_level_union new_field.annot) →
      (common_field_entries c f old_field new_field).filter isTypeEntry =
        [⟨"non-breaking", c, some f, "Type " ++ "widened" ++ ": " ++
          old_field.annot ++ " -> " ++ new_field.annot⟩]) ∧
    (split_top_level_union old_field.annot ≠ split_top_level_union new_field.annot →
      (∀ p ∈ split_top_level_union new_field.annot,
        p ∈ split_top_level_union old_field.annot) →
      (common_field_entries c f old_field new_field).filter isTypeEntry =
        [⟨"breaking", c, some f, "Type " ++ "narrowed" ++ ": " ++
          old_field.annot ++ " -> " ++ new_field.annot⟩]) ∧
    ((¬ ∀ p ∈ split_top_level_union old_field.annot,
        p ∈ split_top_level_union new_field.annot) →
      (¬ ∀ p ∈ split_top_level_union new_field.annot,
        p ∈ split_top_level_union old_field.annot) →
      (common_field_entries c f old_field new_field).filter isTypeEntry =
        [⟨"breaking", c, some f, "Type " ++ "changed" ++ ": " ++
          old_field.annot ++ " -> " ++ new_field.annot⟩]) := by
  refine ⟨?_, ?_, ?_, ?_⟩
  · intro h
    have hb : (split_top_level_union old_field.annot ==
        split_top_level_union new_field.annot) = true := beq_iff_eq.mpr h
    have hcls : classify_type_change old_field.annot new_field.annot = "same" := by
      simp only [classify_type_change]
      rw [hb]
      simp
    rw [common_field_entries_filter, hcls]
    simp
  · intro hne hsub
    have hb : (split_top_level_union old_field.annot ==
        split_top_level_union new_field.annot) = false :=
      beq_eq_false_iff_ne.mpr hne
    have hall : ((split_top_level_union old_field.annot).all
        fun p => (split_top_level_union new_field.annot).contains p) = true := by
      rw [List.all_eq_true]
      intro p hp
      simpa [List.contains] using List.elem_iff.mpr (hsub p hp)
    have hcls : classify_type_change old_field.annot new_field.annot = "widened" := by
      simp only [classify_type_change]
      rw [hb, hall]
      simp
    rw [common_field_entries_filter, hcls]
    simp
  · intro hne hsub
    have hb : (split_top_level_union old_field.annot ==
        split_top_level_union new_field.annot) = false :=
      beq_eq_false_iff_ne.mpr hne
    have hnfwd : ¬ ∀ p ∈ split_top_level_union old_field.annot,
        p ∈ split_top_level_union new_field.annot := by
      intro hfwd
      exact hne (split_sets_eq_of_mutual_subset hfwd hsub)
    have hallf : ((split_top_level_union old_field.annot).all
        fun p => (split_top_level_union new_field.annot).contains p) = false := by
      cases hv : (split_top_level_union old_field.annot).all
          fun p => (split_top_level_union new_field.annot).contains p with
      | false => rfl
      | true =>
        exfalso
        apply hnfwd
        intro p hp
        have := (List.all_eq_true.mp hv) p hp
        simpa [List.contains, List.elem_iff] using this
    have hall2 : ((split_top_level_union new_field.annot).all
        fun p => (split_top_level_union old_field.annot).contains p) = true := by
      rw [List.all_eq_true]
      intro p hp
      simpa [List.contains] using List.elem_iff.mpr (hsub p hp)
    have hcls :
        classify_type_change old_field.annot new_field.annot = "narrowed" := by
      simp only [classify_type_change]
      rw [hb, hallf, hall2]
      simp
    rw [common_field_entries_filter, hcls]
    simp
  · intro hn1 hn2
    have hne : split_top_level_union old_field.annot ≠
        split_top_level_union new_field.annot := by
      intro h
      exact hn1 (by rw [h]; intro p hp; exact hp)
    have hb : (split_top_level_union old_field.annot ==
        split_top_level_union new_field.annot) = false :=
      beq_eq_false_iff_ne.mpr hne
    have hallf1 : ((split_top_level_union old_field.annot).all
        fun p => (split_top_level_union new_field.annot).contains p) = false := by
      cases hv : (split_top_level_union old_field.annot).all
          fun p => (split_top_level_union new_field.annot).contains p with
      | false => rfl
      | true =>
        exfalso
        apply hn1
        intro p hp
        have := (List.all_eq_true.mp hv) p hp
        simpa [List.contains, List.elem_iff] using this
    have hallf2 : ((split_top_level_union new_field.annot).all
        fun p => (split_top_level_union old_field.annot).contains p) = false := by
      cases hv : (split_top_level_union new_field.annot).all
          fun p => (split_top_level_union old_field.annot).contains p with
      | false => rfl
      | true =>
        exfalso
        apply hn2
        intro p hp
        have := (List.all_eq_true.mp hv) p hp
        simpa [List.contains, List.elem_iff] using this
    have hcls :
        classify_type_change old_field.annot new_field.annot = "changed" := by
      simp only [classify_type_change]
      rw [hb, hallf1, hallf2]
      simp
    rw [common_field_entries_filter, hcls]
    simp

/-- C8 witness: widening `int` to `int | str` — the old alternative set is a
proper subset of the new one, and the common-field body emits exactly one
non-breaking `Type widened` entry. -/
theorem classify_type_change_cases_witness :
    (split_top_level_union "int" ≠ split_top_level_union "int|str" ∧
      ∀ p ∈ split_top_level_union "int", p ∈ split_top_level_union "int|str") ∧
    (common_field_entries "M" "x" ⟨"int", true⟩ ⟨"int|str", true⟩).filter
        isTypeEntry =
      [⟨"non-breaking", "M", some "x",
        "Type " ++ "widened" ++ ": " ++ "int" ++ " -> " ++ "int|str"⟩] :=
  ⟨⟨by decide, by decide⟩,
   (classify_type_change_cases "M" "x" ⟨"int", true⟩ ⟨"int|str", true⟩).2.1
     (by decide) (by decide)⟩

theorem lookupF_some_key (fs : List FieldT) (n : String) (t : FieldT)
    (h : lookupF fs n = some t) : t.1 = n ∧ n ∈ fieldKeys fs := by
  induction fs with
  | nil => simp [lookupF] at h
  | cons hd tl ih =>
    rw [lookupF] at h
    by_cases hb : (hd.1 == n) = true
    · rw [if_pos hb] at h
      refine ⟨?_, ?_⟩
      · rw [← Option.some.inj h]
        exact eq_of_beq hb
      · have hk : hd.1 = n := eq_of_beq hb
        simp [fieldKeys, hk]
    · rw [if_neg hb] at h
      rcases ih h with ⟨h1, h2⟩
      refine ⟨h1, ?_⟩
      simp [fieldKeys] at h2 ⊢
      tauto

theorem jof_lookup_one_sided (lf rf : List FieldT) (total : Int) (s : Bool)
    (n : String) (t : FieldT) :
    ∀ names : List String, n ∈ names →
      ((lookupF lf n = some t → lookupF rf n = none →
        lookupF (join_object_fields names lf rf total s) n =
          some (n, t.2.1, t.2.2.1, total, t.2.2.2.2)) ∧
       (lookupF rf n = some t → lookupF lf n = none →
        lookupF (join_object_fields names lf rf total s) n =
          some (n, t.2.1, t.2.2.1, total, t.2.2.2.2))) := by
  intro names
  induction names with
  | nil =>
    intro h
    simp at h
  | cons m rest ih =>
    intro hmem
    rw [join_object_fields]
    by_cases hmn : m = n
    · subst hmn
      constructor
      · intro hA hB
        split
        · rename_i l r hl hr
          rw [hB] at hr
          exact absurd hr (by simp)
        · rename_i l hl hr
          rw [hA] at hl
          obtain rfl : t = l := Option.some.inj hl
          simp [lookupF]
        · rename_i r hl hr
          rw [hA] at hl
          exact absurd hl (by simp)
        · rename_i hl hr
          rw [hA] at hl
          exact absurd hl (by simp)
      · intro hA hB
        split
        · rename_i l r hl hr
          rw [hB] at hl
          exact absurd hl (by simp)
        · rename_i l hl hr
          rw [hB] at hl
          exact absurd hl (by simp)
        · rename_i r hl hr
          rw [hA] at hr
          obtain rfl : t = r := Option.some.inj hr
          simp [lookupF]
        · rename_i hl hr
          rw [hA] at hr
          exact absurd hr (by simp)
    · have hrest : n ∈ rest := by
        rcases List.mem_cons.1 hmem with h | h
        · exact absurd h.symm hmn
        · exact h
      have hkey : (m == n) = false := beq_eq_false_iff_ne.mpr hmn
      constructor
      · intro hA hB
        split <;>
          first
            | (simp [lookupF, hkey]; exact (ih hrest).1 hA hB)
            | exact (ih hrest).1 hA hB
      · intro hA hB
        split <;>
          first
            | (simp [lookupF, hkey]; exact (ih hrest).2 hA hB)
            | exact (ih hrest).2 hA hB

/-- C3 counterexample: the `FieldInfo` of a one-sided field is not copied
verbatim — its `sample_count` is overwritten with the merged object's total.
Joining `{a: int}` (1 sample) with `{b: str}` (1 sample) stores `a` with
`sample_count = 2`, not the operand's `1`. -/
theorem join_object_field_not_verbatim :
    join_types (.object [("a", .int, 1, 1, [])] 1)
        (.object [("b", .str, 1, 1, [])] 1) false =
      .object [("a", .int, 1, 2, []), ("b", .str, 1, 2, [])] 2 ∧
    lookupF [("a", .int, 1, 2, []), ("b", .str, 1, 2, [])] "a" ≠
      some ("a", .int, 1, 1, []) := by
  constructor
  · simp [join_types, join_object_fields, join_object_types, simplify_union,
      flatten_union_options, sortDedupNodes, insNodeD, cmpKey, cmpN, cmpOpts,
      cmpFields, cmpNat, cmpInt, cmpStr, cmpCharL, cmpStrList, beqN,
      instBEqTypeNode, TypeNode.tag, TypeNode.isAny, TypeNode.isUnion,
      type_sort_key, type_name, sortStrs, insStr, sortDedupStrs, insStrD,
      merge_examples, lookupF, fieldKeys, sortPairsByKey, insPairByKey,
      Ordering.then, List.contains, List.elem, List.erase, ANY, NULL, BOOL,
      INT, FLOAT, STR, DATETIME]
  · simp [lookupF]

/-- C3 (amended): in an object-object join, a field name present in exactly
one operand keeps that operand's type, `required_count` and examples in the
merged mapping, but its `sample_count` is set to the sum of the two objects'
sample counts (the merged total) rather than copied verbatim. -/
theorem join_one_sided_fields (lf rf : List FieldT) (ls rs : Int) (s : Bool)
    (n : String) (t : FieldT) :
    (lookupF lf n = some t → lookupF rf n = none →
      lookupF (join_object_fields (sortDedupStrs (fieldKeys lf ++ fieldKeys rf))
          lf rf (ls + rs) s) n =
        some (n, t.2.1, t.2.2.1, ls + rs, t.2.2.2.2)) ∧
    (lookupF rf n = some t → lookupF lf n = none →
      lookupF (join_object_fields (sortDedupStrs (fieldKeys lf ++ fieldKeys rf))
          lf rf (ls + rs) s) n =
        some (n, t.2.1, t.2.2.1, ls + rs, t.2.2.2.2)) := by
  constructor
  · intro hA hB
    have hmem : n ∈ sortDedupStrs (fieldKeys lf ++ fieldKeys rf) := by
      rw [mem_sortDedupStrs]
      exact List.mem_append.2 (Or.inl (lookupF_some_key lf n t hA).2)
    exact (jof_lookup_one_sided lf rf (ls + rs) s n t _ hmem).1 hA hB
  · intro hA hB
    have hmem : n ∈ sortDedupStrs (fieldKeys lf ++ fieldKeys rf) := by
      rw [mem_sortDedupStrs]
      exact List.mem_append.2 (Or.inr (lookupF_some_key rf n t hA).2)
    exact (jof_lookup_one_sided lf rf (ls + rs) s n t _ hmem).2 hA hB

/-- C3 witness: the `a` field of `{a: int}` joined with `{b: str}` comes out
with its type, required count and examples, and the summed sample count. -/
theorem join_one_sided_fields_witness :
    lookupF (join_object_fields
        (sortDedupStrs (fieldKeys [("a", TypeNode.int, 1, 1, [])] ++
          fieldKeys [("b", TypeNode.str, 1, 1, [])]))
        [("a", TypeNode.int, 1, 1, [])] [("b", TypeNode.str, 1, 1, [])]
        ((1 : Int) + 1) false) "a" =
      some ("a", TypeNode.int, 1, (1 : Int) + 1, []) :=
  (join_one_sided_fields [("a", .int, 1, 1, [])] [("b", .str, 1, 1, [])]
    1 1 false "a" ("a", .int, 1, 1, [])).1 rfl rfl

theorem examples_from_data_map (ex : List String) :
    examples_from_data (some (.jarr (ex.map JValue.jstr))) = some ex := by
  induction ex with
  | nil => rfl
  | cons s rest ih =>
    simp only [examples_from_data, List.map_cons, List.foldr_cons] at ih ⊢
    rw [ih]

theorem strictSortedKeys_pairwise : ∀ fs : List FieldT,
    strictSortedKeys fs = true →
    List.Pairwise (fun a b : FieldT => cmpStr a.1 b.1 = .lt) fs := by
  intro fs
  induction fs with
  | nil => intro _; exact List.Pairwise.nil
  | cons x rest ih =>
    intro h
    cases rest with
    | nil => simp
    | cons y rest2 =>
      rw [strictSortedKeys] at h
      rw [Bool.and_eq_true] at h
      rcases h with ⟨h1, h2⟩
      have hxy : cmpStr x.1 y.1 = .lt := by
        cases hc : cmpStr x.1 y.1
        · rfl
        · rw [hc] at h1; simp at h1
        · rw [hc] at h1; simp at h1
      have hp := ih h2
      refine List.pairwise_cons.2 ⟨?_, hp⟩
      intro b hb
      rcases List.mem_cons.1 hb with rfl | hb'
      · exact hxy
      · exact cmpStr_lt_trans hxy ((List.pairwise_cons.1 hp).1 b hb')

theorem insPairByKey_head_lt {α : Type} (x : String × α) (l : List (String × α))
    (h : ∀ b ∈ l, cmpStr x.1 b.1 = .lt) : insPairByKey x l = x :: l := by
  cases l with
  | nil => rfl
  | cons y ys =>
    rw [insPairByKey]
    rw [h y (List.mem_cons_self y ys)]

theorem sortPairsByKey_sorted_id {α : Type} : ∀ l : List (String × α),
    List.Pairwise (fun a b => cmpStr a.1 b.1 = .lt) l → sortPairsByKey l = l := by
  intro l
  induction l with
  | nil => intro _; rfl
  | cons x rest ih =>
    intro h
    rcases List.pairwise_cons.1 h with ⟨hx, hrest⟩
    simp only [sortPairsByKey, List.foldr_cons] at ih ⊢
    rw [ih hrest]
    exact insPairByKey_head_lt x rest hx

theorem dictInsert_fresh {α : Type} (acc : List (String × α)) (k : String) (v : α)
    (h : ∀ q ∈ acc, (q.1 == k) = false) : dictInsert acc k v = acc ++ [(k, v)] := by
  induction acc with
  | nil => rfl
  | cons q rest ih =>
    rw [dictInsert]
    rw [h q (List.mem_cons_self q rest)]
    simp [ih (fun p hp => h p (List.mem_cons_of_mem q hp))]

theorem dictOf_fresh_aux {α : Type} : ∀ (l acc : List (String × α)),
    List.Pairwise (fun a b => a.1 ≠ b.1) l →
    (∀ p ∈ l, ∀ q ∈ acc, (q.1 == p.1) = false) →
    List.foldl (fun acc p => dictInsert acc p.1 p.2) acc l = acc ++ l := by
  intro l
  induction l with
  | nil =>
    intro acc _ _
    simp
  | cons p rest ih =>
    intro acc hdist hdisj
    rcases List.pairwise_cons.1 hdist with ⟨hp, hrest⟩
    rw [List.foldl_cons]
    rw [dictInsert_fresh acc p.1 p.2
      (fun q hq => hdisj p (List.mem_cons_self p rest) q hq)]
    rw [ih (acc ++ [(p.1, p.2)]) hrest ?_]
    · simp
    · intro r hr q hq
      rcases List.mem_append.1 hq with hq1 | hq2
      · exact hdisj r (List.mem_cons_of_mem p hr) q hq1
      · have hqe : q = (p.1, p.2) := by simpa using hq2
        rw [hqe]
        exact beq_eq_false_iff_ne.mpr (hp r hr)

theorem dictOf_distinct_id {α : Type} (l : List (String × α))
    (h : List.Pairwise (fun a b => a.1 ≠ b.1) l) : dictOf l = l := by
  have := dictOf_fresh_aux l [] h (by intro p _ q hq; simp at hq)
  simpa [dictOf] using this

theorem mem_fieldT_sizeOf (f : FieldT) : ∀ fs : List FieldT, f ∈ fs →
    sizeOf f.2.1 < sizeOf fs := by
  intro fs
  induction fs with
  | nil => intro h; simp at h
  | cons hd tl ih =>
    intro h
    rcases List.mem_cons.1 h with rfl | h'
    · obtain ⟨n, t, rc, sc, ex⟩ := f
      simp_arith
    · have := ih h'
      simp_arith
      omega

theorem mem_opts_sizeOf (o : TypeNode) : ∀ opts : List TypeNode, o ∈ opts →
    sizeOf o < sizeOf opts := by
  intro opts
  induction opts with
  | nil => intro h; simp at h
  | cons hd tl ih =>
    intro h
    rcases List.mem_cons.1 h with rfl | h'
    · simp_arith
    · have := ih h'
      simp_arith
      omega

theorem canonicalFields_mem (f : FieldT) : ∀ fs : List FieldT,
    canonicalFields fs = true → f ∈ fs → canonicalN f.2.1 = true := by
  intro fs
  induction fs with
  | nil => intro _ h; simp at h
  | cons hd tl ih =>
    intro hc h
    obtain ⟨n, t, rc, sc, ex⟩ := hd
    rw [canonicalFields] at hc
    rw [Bool.and_eq_true] at hc
    rcases hc with ⟨h1, h2⟩
    rcases List.mem_cons.1 h with rfl | h'
    · exact h1
    · exact ih h2 h'

theorem canonicalOpts_mem (o : TypeNode) : ∀ opts : List TypeNode,
    canonicalOpts opts = true → o ∈ opts → canonicalN o = true := by
  intro opts
  induction opts with
  | nil => intro _ h; simp at h
  | cons hd tl ih =>
    intro hc h
    rw [canonicalOpts] at hc
    rw [Bool.and_eq_true] at hc
    rcases hc with ⟨h1, h2⟩
    rcases List.mem_cons.1 h with rfl | h'
    · exact h1
    · exact ih h2 h'

theorem fields_from_to (fs : List FieldT)
    (hrec : ∀ f ∈ fs, type_from_data (type_to_data f.2.1) = some f.2.1) :
    fields_from_data (fields_to_data fs) = some fs := by
  induction fs with
  | nil =>
    rw [fields_to_data, fields_from_data.eq_def]
  | cons f rest ih =>
    obtain ⟨n, t, rc, sc, ex⟩ := f
    have h1 : type_from_data (type_to_data t) = some t :=
      hrec (n, t, rc, sc, ex) (List.mem_cons_self _ _)
    have h2 := ih (fun g hg => hrec g (List.mem_cons_of_mem _ hg))
    rw [fields_to_data, fields_from_data.eq_def]
    simp [lookupJ, h1, h2, examples_from_data_map]

theorem options_from_to (opts : List TypeNode)
    (hrec : ∀ o ∈ opts, type_from_data (type_to_data o) = some o) :
    options_from_data (options_to_data opts) = some opts := by
  induction opts with
  | nil =>
    rw [options_to_data, options_from_data.eq_def]
  | cons o rest ih =>
    have h1 : type_from_data (type_to_data o) = some o :=
      hrec o (List.mem_cons_self _ _)
    have h2 := ih (fun g hg => hrec g (List.mem_cons_of_mem _ hg))
    rw [options_to_data, options_from_data.eq_def]
    simp [h1, h2]

theorem type_roundtrip_aux : ∀ (k : Nat) (n : TypeNode), sizeOf n ≤ k →
    canonicalN n = true → type_from_data (type_to_data n) = some n := by
  intro k
  induction k using Nat.strong_induction_on with
  | _ k ih =>
    intro n hsz hcn
    cases n with
    | any => rw [type_to_data, type_from_data.eq_def]; simp [lookupJ, ANY]
    | null => rw [type_to_data, type_from_data.eq_def]; simp [lookupJ, NULL]
    | bool => rw [type_to_data, type_from_data.eq_def]; simp [lookupJ, BOOL]
    | int => rw [type_to_data, type_from_data.eq_def]; simp [lookupJ, INT]
    | float => rw [type_to_data, type_from_data.eq_def]; simp [lookupJ, FLOAT]
    | str => rw [type_to_data, type_from_data.eq_def]; simp [lookupJ, STR]
    | datetime =>
      rw [type_to_data, type_from_data.eq_def]; simp [lookupJ, DATETIME]
    | array item =>
      have hszi : sizeOf item < k := by
        simp at hsz
        omega
      have hci : canonicalN item = true := by
        rw [canonicalN] at hcn
        exact hcn
      have hrec := ih (sizeOf item) hszi item le_rfl hci
      rw [type_to_data, type_from_data.eq_def]
      simp [lookupJ, hrec]
    | object fs sc =>
      rw [canonicalN] at hcn
      rw [Bool.and_eq_true] at hcn
      rcases hcn with ⟨hss, hcf⟩
      have hszf : sizeOf fs < k := by
        simp at hsz
        omega
      have hrec : ∀ f ∈ fs, type_from_data (type_to_data f.2.1) = some f.2.1 := by
        intro f hf
        have h1 := mem_fieldT_sizeOf f fs hf
        exact ih (sizeOf f.2.1) (by omega) f.2.1 le_rfl
          (canonicalFields_mem f fs hcf hf)
      have hfields := fields_from_to fs hrec
      have hpair := strictSortedKeys_pairwise fs hss
      have hne : List.Pairwise (fun a b : FieldT => a.1 ≠ b.1) fs := by
        refine hpair.imp ?_
        intro a b hab he
        rw [he, cmpStr_irrefl] at hab
        exact absurd hab (by decide)
      have hdict : dictOf fs = fs := dictOf_distinct_id fs hne
      have hsort : sortPairsByKey fs = fs := sortPairsByKey_sorted_id fs hpair
      rw [type_to_data, type_from_data.eq_def]
      simp [lookupJ, hfields, from_mapping, hdict, hsort]
    | union opts =>
      rw [canonicalN] at hcn
      have hszo : sizeOf opts < k := by
        simp at hsz
        omega
      have hrec : ∀ o ∈ opts, type_from_data (type_to_data o) = some o := by
        intro o ho
        have h1 := mem_opts_sizeOf o opts ho
        exact ih (sizeOf o) (by omega) o le_rfl (canonicalOpts_mem o opts hcn ho)
      have hopts := options_from_to opts hrec
      rw [type_to_data, type_from_data.eq_def]
      simp [lookupJ, hopts]

/-- The `kind == "object"` branch of `_type_from_data` on the canonical
payload shape the encoder emits. -/
theorem decode_object_payload (fl : List JValue) (sc : Int) :
    type_from_data (.jobj [("kind", .jstr "object"), ("sample_count", .jint sc),
      ("fields", .jarr fl)]) =
      match fields_from_data fl with
      | some fields => some (from_mapping (dictOf fields) sc)
      | none => none := by
  rw [type_from_data.eq_def]
  simp [lookupJ]

/-- C7 counterexample: state persistence does not round-trip *every* type
node — decoding re-sorts object fields by name (`from_mapping`), so an object
whose field tuple is not name-sorted comes back re-ordered and is not
structurally equal to the original. -/
theorem state_roundtrip_fails_unsorted :
    type_from_data (type_to_data (TypeNode.object
      [("b", .int, 1, 1, []), ("a", .int, 1, 1, [])] 1)) =
      some (.object [("a", .int, 1, 1, []), ("b", .int, 1, 1, [])] 1) ∧
    TypeNode.object [("b", .int, 1, 1, []), ("a", .int, 1, 1, [])] 1 ≠
      .object [("a", .int, 1, 1, []), ("b", .int, 1, 1, [])] 1 := by
  constructor
  · have hint : type_from_data (type_to_data TypeNode.int) = some TypeNode.int := by
      rw [type_to_data, type_from_data.eq_def]
      simp [lookupJ, INT]
    have hfields := fields_from_to [("b", .int, 1, 1, []), ("a", .int, 1, 1, [])]
      (by
        intro f hf
        simp at hf
        rcases hf with rfl | rfl <;> exact hint)
    have hsorted : from_mapping
        (dictOf [("b", TypeNode.int, 1, 1, []), ("a", TypeNode.int, 1, 1, [])]) 1 =
        .object [("a", TypeNode.int, 1, 1, []), ("b", TypeNode.int, 1, 1, [])] 1 := by
      simp [from_mapping, dictOf, dictInsert, sortPairsByKey, insPairByKey,
        cmpStr, cmpCharL, cmpNat, Ordering.then]
    rw [type_to_data, decode_object_payload, hfields]
    simp [hsorted]
  · intro h
    simp at h

/-- C7 (amended): decoding the encoded state payload returns the root exactly
— all `FieldInfo` counts and examples included, since the equality is
structural — for every canonical root: one whose object field lists are
strictly sorted by name, the invariant `ObjectType.from_mapping` establishes
for every object the system builds.  (An artificially unsorted field tuple is
re-sorted by the decoder — see the counterexample.) -/
theorem state_roundtrip (root : TypeNode) (h : canonicalN root = true) :
    type_from_data (type_to_data root) = some root :=
  type_roundtrip_aux (sizeOf root) root le_rfl h

/-- C7 witness: an object with an optional field (`a`, required 2 of 3)
holding an array of a nested union round-trips exactly. -/
theorem state_roundtrip_witness :
    canonicalN (TypeNode.object
      [("a", .array (.union [INT, STR]), 2, 3, ["x"]),
        ("b", .int, 1, 3, [])] 3) = true ∧
    type_from_data (type_to_data (TypeNode.object
      [("a", .array (.union [INT, STR]), 2, 3, ["x"]),
        ("b", .int, 1, 3, [])] 3)) =
      some (.object [("a", .array (.union [INT, STR]), 2, 3, ["x"]),
        ("b", .int, 1, 3, [])] 3) :=
  ⟨by simp [canonicalN, canonicalFields, canonicalOpts, strictSortedKeys,
      cmpStr, cmpCharL, cmpNat, Ordering.then, INT, STR],
   state_roundtrip _ (by
     simp [canonicalN, canonicalFields, canonicalOpts, strictSortedKeys,
       cmpStr, cmpCharL, cmpNat, Ordering.then, INT, STR])⟩

theorem cmpKey_irrefl (a : TypeNode) : cmpKey a a = .eq :=
  (cmpKey_eq_iff a a).2 rfl

theorem cmpKey_lt_trans {a b c : TypeNode} (h1 : cmpKey a b = .lt)
    (h2 : cmpKey b c = .lt) : cmpKey a c = .lt :=
  (cmpKey_tt a b c).1 h1 h2

theorem mem_insNodeD (x y : TypeNode) (l : List TypeNode) :
    x ∈ insNodeD y l ↔ x = y ∨ x ∈ l := by
  induction l with
  | nil => simp [insNodeD]
  | cons hd tl ih =>
    rw [insNodeD]
    cases hc : cmpKey y hd with
    | lt => simp
    | eq =>
      have hy : y = hd := (cmpKey_eq_iff _ _).1 hc
      subst hy
      simp
    | gt =>
      simp [ih]
      tauto

theorem pairwise_insNodeD (y : TypeNode) (l : List TypeNode)
    (h : List.Pairwise (fun a b => cmpKey a b = .lt) l) :
    List.Pairwise (fun a b => cmpKey a b = .lt) (insNodeD y l) := by
  induction l with
  | nil => simp [insNodeD]
  | cons hd tl ih =>
    rw [insNodeD]
    rcases List.pairwise_cons.1 h with ⟨hhd, htl⟩
    cases hc : cmpKey y hd with
    | lt =>
      refine List.pairwise_cons.2 ⟨?_, h⟩
      intro b hb
      rcases List.mem_cons.1 hb with rfl | hb'
      · exact hc
      · exact cmpKey_lt_trans hc (hhd b hb')
    | eq => exact h
    | gt =>
      refine List.pairwise_cons.2 ⟨?_, ih htl⟩
      intro b hb
      rcases (mem_insNodeD b y tl).1 hb with rfl | hb'
      · have hsw := cmpKey_swap b hd
        rw [hc] at hsw
        exact hsw.symm
      · exact hhd b hb'

theorem pairwise_sortDedupNodes (l : List TypeNode) :
    List.Pairwise (fun a b => cmpKey a b = .lt) (sortDedupNodes l) := by
  induction l with
  | nil => simp [sortDedupNodes]
  | cons hd tl ih =>
    simp only [sortDedupNodes, List.foldr_cons] at ih ⊢
    exact pairwise_insNodeD hd _ ih

theorem mem_sortDedupNodes (x : TypeNode) (l : List TypeNode) :
    x ∈ sortDedupNodes l ↔ x ∈ l := by
  induction l with
  | nil => simp [sortDedupNodes]
  | cons hd tl ih =>
    simp only [sortDedupNodes, List.foldr_cons] at ih ⊢
    rw [mem_insNodeD]
    simp [ih]

theorem notMemN_iff : ∀ (x : TypeNode) (l : List TypeNode),
    notMemN x l = true ↔ ∀ y ∈ l, x ≠ y := by
  intro x l
  induction l with
  | nil => simp [notMemN]
  | cons hd tl ih =>
    rw [notMemN]
    rw [Bool.and_eq_true]
    constructor
    · rintro ⟨h1, h2⟩ y hy
      rcases List.mem_cons.1 hy with rfl | hy'
      · intro he
        rw [he] at h1
        rw [beqN_refl] at h1
        simp at h1
      · exact (ih.1 h2) y hy'
    · intro h
      refine ⟨?_, ih.2 (fun y hy => h y (List.mem_cons_of_mem hd hy))⟩
      cases hb : beqN x hd with
      | false => rfl
      | true => exact absurd ((beqN_iff _ _).1 hb) (h hd (List.mem_cons_self hd tl))

theorem distinctOpts_of_pairwise : ∀ l : List TypeNode,
    List.Pairwise (fun a b => cmpKey a b = .lt) l → distinctOpts l = true := by
  intro l
  induction l with
  | nil => intro _; rfl
  | cons hd tl ih =>
    intro h
    rcases List.pairwise_cons.1 h with ⟨hhd, htl⟩
    rw [distinctOpts]
    rw [Bool.and_eq_true]
    refine ⟨(notMemN_iff hd tl).2 ?_, ih htl⟩
    intro y hy he
    have := hhd y hy
    rw [← he] at this
    rw [cmpKey_irrefl] at this
    exact absurd this (by decide)

theorem goodN_array (t : TypeNode) : goodN (.array t) = goodN t := by
  simp [goodN]

theorem goodN_object (fs : List FieldT) (sc : Int) :
    goodN (.object fs sc) = goodFields fs := by
  simp [goodN]

theorem goodN_union_iff (opts : List TypeNode) :
    goodN (.union opts) = true ↔
      goodOptions opts = true ∧ distinctOpts opts = true ∧ 2 ≤ opts.length := by
  simp [goodN, Bool.and_eq_true, and_assoc]

theorem goodOptions_mem : ∀ opts : List TypeNode, goodOptions opts = true →
    ∀ m ∈ opts, goodN m = true ∧ m.isUnion = false ∧ m.isAny = false := by
  intro opts
  induction opts with
  | nil =>
    intro _ m hm
    simp at hm
  | cons hd tl ih =>
    intro h m hm
    rw [goodOptions] at h
    simp only [Bool.and_eq_true, Bool.not_eq_true'] at h
    rcases h with ⟨⟨⟨h1, h2⟩, h3⟩, h4⟩
    rcases List.mem_cons.1 hm with rfl | hm'
    · exact ⟨h3, h1, h2⟩
    · exact ih h4 m hm'

theorem goodOptions_of_mem : ∀ opts : List TypeNode,
    (∀ m ∈ opts, goodN m = true ∧ m.isUnion = false ∧ m.isAny = false) →
    goodOptions opts = true := by
  intro opts
  induction opts with
  | nil => intro _; rfl
  | cons hd tl ih =>
    intro h
    rcases h hd (List.mem_cons_self hd tl) with ⟨h1, h2, h3⟩
    rw [goodOptions]
    simp only [Bool.and_eq_true, Bool.not_eq_true']
    exact ⟨⟨⟨h2, h3⟩, h1⟩, ih (fun m hm => h m (List.mem_cons_of_mem hd hm))⟩

theorem flatten_singleton (x : TypeNode) (h : x.isUnion = false) :
    flatten_union_options [x] = [x] := by
  cases x <;> simp [flatten_union_options] <;> simp [TypeNode.isUnion] at h

theorem flatten_id : ∀ opts : List TypeNode,
    (∀ m ∈ opts, m.isUnion = false) → flatten_union_options opts = opts := by
  intro opts
  induction opts with
  | nil => intro _; simp [flatten_union_options]
  | cons x rest ih =>
    intro h
    rw [flatten_cons]
    rw [flatten_singleton x (h x (List.mem_cons_self x rest))]
    rw [ih (fun m hm => h m (List.mem_cons_of_mem x hm))]
    rfl

theorem flatten_good : ∀ l : List TypeNode, (∀ n ∈ l, goodN n = true) →
    ∀ m ∈ flatten_union_options l, goodN m = true ∧ m.isUnion = false := by
  intro l
  induction l with
  | nil =>
    intro _ m hm
    simp [flatten_union_options] at hm
  | cons x rest ih =>
    intro h m hm
    rw [flatten_cons] at hm
    rcases List.mem_append.1 hm with hm1 | hm2
    · by_cases hxu : x.isUnion = true
      · obtain ⟨opts, rfl⟩ : ∃ opts, x = .union opts := by
          cases x <;> simp [TypeNode.isUnion] at hxu <;> exact ⟨_, rfl⟩
        have hg := h _ (List.mem_cons_self _ _)
        rcases (goodN_union_iff opts).1 hg with ⟨hopt, _, _⟩
        have hops := goodOptions_mem opts hopt
        have heq : flatten_union_options [TypeNode.union opts] =
            flatten_union_options opts := by
          simp [flatten_union_options]
        rw [heq, flatten_id opts (fun m hm => (hops m hm).2.1)] at hm1
        rcases hops m hm1 with ⟨h1, h2, _⟩
        exact ⟨h1, h2⟩
      · have hxu' : x.isUnion = false := by
          cases hv : x.isUnion
          · rfl
          · exact absurd hv hxu
        rw [flatten_singleton x hxu'] at hm1
        simp at hm1
        subst hm1
        exact ⟨h m (List.mem_cons_self m rest), hxu'⟩
    · exact ih (fun n hn => h n (List.mem_cons_of_mem x hn)) m hm2

theorem flatten_ne_nil : ∀ l : List TypeNode, l ≠ [] →
    (∀ n ∈ l, goodN n = true) → flatten_union_options l ≠ [] := by
  intro l hne hg
  cases l with
  | nil => exact absurd rfl hne
  | cons x rest =>
    rw [flatten_cons]
    intro hemp
    rcases List.append_eq_nil.mp hemp with ⟨h1, _⟩
    by_cases hxu : x.isUnion = true
    · obtain ⟨opts, rfl⟩ : ∃ opts, x = .union opts := by
        cases x <;> simp [TypeNode.isUnion] at hxu <;> exact ⟨_, rfl⟩
      have hgu := hg _ (List.mem_cons_self _ _)
      rcases (goodN_union_iff opts).1 hgu with ⟨hopt, _, hlen⟩
      have hops := goodOptions_mem opts hopt
      have heq : flatten_union_options [TypeNode.union opts] =
          flatten_union_options opts := by
        simp [flatten_union_options]
      rw [heq, flatten_id opts (fun m hm => (hops m hm).2.1)] at h1
      rw [h1] at hlen
      simp at hlen
    · have hxu' : x.isUnion = false := by
        cases hv : x.isUnion
        · rfl
        · exact absurd hv hxu
      rw [flatten_singleton x hxu'] at h1
      simp at h1

theorem sortDedupNodes_ne_nil (l : List TypeNode) (h : l ≠ []) :
    sortDedupNodes l ≠ [] := by
  cases l with
  | nil => exact absurd rfl h
  | cons x rest =>
    have hx : x ∈ sortDedupNodes (x :: rest) :=
      (mem_sortDedupNodes x (x :: rest)).2 (List.mem_cons_self x rest)
    intro hemp
    rw [hemp] at hx
    simp at hx

theorem contains_node_iff (l : List TypeNode) (a : TypeNode) :
    l.contains a = true ↔ a ∈ l := by
  induction l with
  | nil => simp [List.contains, List.elem]
  | cons hd tl ih =>
    show List.elem a (hd :: tl) = true ↔ a ∈ hd :: tl
    rw [List.elem]
    cases hb : a == hd with
    | true =>
      have : a = hd := (beqN_iff a hd).1 hb
      subst this
      simp
    | false =>
      have hbq : beqN a hd = false := hb
      have hne : a ≠ hd := by
        intro he
        rw [he, beqN_refl] at hbq
        exact absurd hbq (by decide)
      constructor
      · intro h
        exact List.mem_cons_of_mem hd (ih.1 h)
      · intro h
        rcases List.mem_cons.1 h with rfl | h'
        · exact absurd rfl hne
        · exact ih.2 h'

theorem mem_erase_of_ne_node {a b : TypeNode} {l : List TypeNode}
    (ha : a ∈ l) (hne : a ≠ b) : a ∈ l.erase b := by
  induction l with
  | nil => simp at ha
  | cons hd tl ih =>
    rw [List.erase_cons]
    by_cases hb : (hd == b) = true
    · simp only [hb, if_true]
      rcases List.mem_cons.1 ha with rfl | h'
      · exact absurd ((beqN_iff a b).1 hb) hne
      · exact h'
    · have hb' : (hd == b) = false := by
        cases hv : hd == b
        · rfl
        · exact absurd hv hb
      simp only [hb', Bool.false_eq_true, if_false]
      rcases List.mem_cons.1 ha with rfl | h'
      · exact List.mem_cons_self a _
      · exact List.mem_cons_of_mem hd (ih h')

theorem two_le_length_of_two_mem {α : Type} {a b : α} {l : List α}
    (ha : a ∈ l) (hb : b ∈ l) (hne : a ≠ b) : 2 ≤ l.length := by
  cases l with
  | nil => simp at ha
  | cons x rest =>
    cases rest with
    | nil =>
      simp at ha hb
      subst ha
      subst hb
      exact absurd rfl hne
    | cons y r2 => simp_arith

/-- The `Union` invariant holds for every result of `simplify_union` on a
nonempty list of invariant-respecting nodes. -/
theorem good_simplify (nodes : List TypeNode) (s : Bool)
    (hne : nodes ≠ []) (hg : ∀ n ∈ nodes, goodN n = true) :
    goodN (simplify_union nodes s) = true := by
  unfold simplify_union
  by_cases hany : (flatten_union_options nodes).any TypeNode.isAny = true
  · simp [hany, ANY, goodN]
  · have hanyf : (flatten_union_options nodes).any TypeNode.isAny = false := by
      cases hv : (flatten_union_options nodes).any TypeNode.isAny
      · rfl
      · exact absurd hv hany
    have hnoany : ∀ m ∈ flatten_union_options nodes, m.isAny = false := by
      intro m hm
      cases hv : m.isAny with
      | false => rfl
      | true =>
        have : (flatten_union_options nodes).any TypeNode.isAny = true :=
          List.any_eq_true.mpr ⟨m, hm, hv⟩
        rw [this] at hanyf
        exact absurd hanyf (by decide)
    have hflat := flatten_good nodes hg
    have hfne := flatten_ne_nil nodes hne hg
    have hd0pair := pairwise_sortDedupNodes (flatten_union_options nodes)
    have hd0ne := sortDedupNodes_ne_nil _ hfne
    have hmemgood : ∀ m ∈ sortDedupNodes (flatten_union_options nodes),
        goodN m = true ∧ m.isUnion = false ∧ m.isAny = false := by
      intro m hm
      have hm' := (mem_sortDedupNodes m _).1 hm
      rcases hflat m hm' with ⟨h1, h2⟩
      exact ⟨h1, h2, hnoany m hm'⟩
    simp only [hanyf, Bool.false_eq_true, if_false]
    set d0 := sortDedupNodes (flatten_union_options nodes) with hd0def
    by_cases hcond : (!s && d0.contains FLOAT && d0.contains INT) = true
    · -- INT is erased
      simp only [hcond, if_true]
      have hFm : FLOAT ∈ d0 := by
        rw [Bool.and_eq_true, Bool.and_eq_true] at hcond
        exact (contains_node_iff d0 FLOAT).1 hcond.1.2
      have hFe : FLOAT ∈ d0.erase INT :=
        mem_erase_of_ne_node hFm (by simp [FLOAT, INT])
      have hpair' : List.Pairwise (fun a b => cmpKey a b = .lt) (d0.erase INT) :=
        hd0pair.sublist (List.erase_sublist INT d0)
      have hmem' : ∀ m ∈ d0.erase INT,
          goodN m = true ∧ m.isUnion = false ∧ m.isAny = false :=
        fun m hm => hmemgood m (List.mem_of_mem_erase hm)
      cases he : d0.erase INT with
      | nil =>
        rw [he] at hFe
        simp at hFe
      | cons a tail =>
        cases tail with
        | nil => exact (hmem' a (by rw [he]; exact List.mem_cons_self a [])).1
        | cons b t2 =>
          rw [goodN_union_iff]
          refine ⟨goodOptions_of_mem _ (by rw [← he]; exact hmem'), ?_, ?_⟩
          · exact distinctOpts_of_pairwise _ (by rw [← he]; exact hpair')
          · simp_arith
    · simp only [hcond, Bool.false_eq_true, if_false]
      cases he : d0 with
      | nil => exact absurd he hd0ne
      | cons a tail =>
        cases tail with
        | nil => exact (hmemgood a (by rw [he]; exact List.mem_cons_self a [])).1
        | cons b t2 =>
          rw [goodN_union_iff]
          refine ⟨goodOptions_of_mem _ (by rw [← he]; exact hmemgood), ?_, ?_⟩
          · exact distinctOpts_of_pairwise _ (by rw [← he]; exact hd0pair)
          · simp_arith

theorem lookupF_some_mem (fs : List FieldT) (n : String) (t : FieldT)
    (h : lookupF fs n = some t) : t ∈ fs := by
  induction fs with
  | nil => simp [lookupF] at h
  | cons hd tl ih =>
    rw [lookupF] at h
    by_cases hb : (hd.1 == n) = true
    · rw [if_pos hb] at h
      rw [← Option.some.inj h]
      exact List.mem_cons_self hd tl
    · rw [if_neg hb] at h
      exact List.mem_cons_of_mem hd (ih h)

theorem goodFields_iff : ∀ fs : List FieldT,
    goodFields fs = true ↔ ∀ f ∈ fs, goodN f.2.1 = true := by
  intro fs
  induction fs with
  | nil => simp [goodFields]
  | cons hd tl ih =>
    obtain ⟨n, t, rc, sc, ex⟩ := hd
    rw [goodFields]
    rw [Bool.and_eq_true]
    constructor
    · rintro ⟨h1, h2⟩ f hf
      rcases List.mem_cons.1 hf with rfl | hf'
      · exact h1
      · exact ih.1 h2 f hf'
    · intro h
      exact ⟨h _ (List.mem_cons_self _ _),
        ih.2 (fun f hf => h f (List.mem_cons_of_mem _ hf))⟩

theorem good_jof (lf rf : List FieldT) (total : Int) (s : Bool)
    (hgl : ∀ f ∈ lf, goodN f.2.1 = true) (hgr : ∀ f ∈ rf, goodN f.2.1 = true)
    (hj : ∀ (n : String) (a b : FieldT), lookupF lf n = some a →
      lookupF rf n = some b → goodN (join_types a.2.1 b.2.1 s) = true) :
    ∀ names, ∀ f ∈ join_object_fields names lf rf total s,
      goodN f.2.1 = true := by
  intro names
  induction names with
  | nil =>
    intro f hf
    rw [join_object_fields] at hf
    simp at hf
  | cons n rest ih =>
    intro f hf
    rw [join_object_fields] at hf
    split at hf
    · rename_i a b hla hrb
      rcases List.mem_cons.1 hf with rfl | hf'
      · exact hj n a b hla hrb
      · exact ih f hf'
    · rename_i a hla hrb
      rcases List.mem_cons.1 hf with rfl | hf'
      · exact hgl a (lookupF_some_mem lf n a hla)
      · exact ih f hf'
    · rename_i b hla hrb
      rcases List.mem_cons.1 hf with rfl | hf'
      · exact hgr b (lookupF_some_mem rf n b hrb)
      · exact ih f hf'
    · exact ih f hf

theorem mem_insPairByKey {α : Type} (x y : String × α) (l : List (String × α)) :
    x ∈ insPairByKey y l ↔ x = y ∨ x ∈ l := by
  induction l with
  | nil => simp [insPairByKey]
  | cons hd tl ih =>
    rw [insPairByKey]
    cases hc : cmpStr y.1 hd.1 with
    | lt => simp
    | eq => simp
    | gt =>
      simp [ih]
      tauto

theorem mem_sortPairsByKey {α : Type} (x : String × α) : ∀ l : List (String × α),
    x ∈ sortPairsByKey l ↔ x ∈ l := by
  intro l
  induction l with
  | nil => simp [sortPairsByKey]
  | cons hd tl ih =>
    simp only [sortPairsByKey, List.foldr_cons] at ih ⊢
    rw [mem_insPairByKey]
    simp [ih]

theorem good_join_aux : ∀ (k : Nat) (l r : TypeNode) (s : Bool),
    sizeOf l + sizeOf r ≤ k → goodN l = true → goodN r = true →
    goodN (join_types l r s) = true := by
  intro k
  induction k using Nat.strong_induction_on with
  | _ k ih =>
    intro l r s hle hgl hgr
    by_cases hbe : beqN l r = true
    · have h := (beqN_iff l r).mp hbe
      subst h
      rw [join_types_idem]
      assumption
    · have hbe1 : beqN l r = false := by
        cases h : beqN l r
        · rfl
        · exact absurd h hbe
      rw [join_types.eq_def l r s]
      rw [hbe1]
      simp only [Bool.false_eq_true, if_false]
      by_cases hany : (l.isAny || r.isAny) = true
      · simp [hany, ANY, goodN]
      · have hany1 : (l.isAny || r.isAny) = false := by
          cases h : (l.isAny || r.isAny)
          · rfl
          · exact absurd h hany
        rw [hany1]
        simp only [Bool.false_eq_true, if_false]
        cases l <;> cases r <;>
          first
          | (rw [beqN_refl] at hbe1
             exact absurd hbe1 (by decide))
          | exact good_simplify _ s (by simp)
              (by
                intro m hm
                simp at hm
                rcases hm with rfl | rfl <;> first | exact hgl | exact hgr)
          | (rename_i li ri
             show goodN (TypeNode.array (join_types li ri s)) = true
             rw [goodN_array]
             rw [goodN_array] at hgl hgr
             refine ih (sizeOf li + sizeOf ri) ?_ li ri s le_rfl hgl hgr
             have h5 : sizeOf li + sizeOf ri <
                 sizeOf (TypeNode.array li) + sizeOf (TypeNode.array ri) := by
               simp_arith
             omega)
          | (rename_i lf ls rf rs
             show goodN (TypeNode.object
               (sortPairsByKey
                 (join_object_fields (sortDedupStrs (fieldKeys lf ++ fieldKeys rf))
                   lf rf (ls + rs) s)) (ls + rs)) = true
             rw [goodN_object]
             rw [goodFields_iff]
             intro f hf
             rw [mem_sortPairsByKey] at hf
             rw [goodN_object] at hgl hgr
             refine good_jof lf rf (ls + rs) s ((goodFields_iff lf).1 hgl)
               ((goodFields_iff rf).1 hgr) ?_ _ f hf
             intro n a b hla hrb
             refine ih (sizeOf a.2.1 + sizeOf b.2.1) ?_ a.2.1 b.2.1 s le_rfl
               ((goodFields_iff lf).1 hgl a (lookupF_some_mem lf n a hla))
               ((goodFields_iff rf).1 hgr b (lookupF_some_mem rf n b hrb))
             have h5 := lookupF_sizeOf hla
             have h6 := lookupF_sizeOf hrb
             have h7 : sizeOf lf < sizeOf (TypeNode.object lf ls) := by simp_arith
             have h8 : sizeOf rf < sizeOf (TypeNode.object rf rs) := by simp_arith
             omega)

/-- The `Union` invariant is preserved by `join_types`. -/
theorem good_join (l r : TypeNode) (s : Bool) (hl : goodN l = true)
    (hr : goodN r = true) : goodN (join_types l r s) = true :=
  good_join_aux (sizeOf l + sizeOf r) l r s le_rfl hl hr

theorem good_infer_items : ∀ (vs : List JValue),
    (∀ v ∈ vs, goodN (infer_type v) = true) →
    ∀ item, goodN item = true → goodN (infer_items item vs) = true := by
  intro vs
  induction vs with
  | nil =>
    intro _ item hitem
    rw [infer_items]
    exact hitem
  | cons v rest ih =>
    intro h item hitem
    rw [infer_items]
    exact ih (fun w hw => h w (List.mem_cons_of_mem v hw)) _
      (good_join item (infer_type v) _ hitem (h v (List.mem_cons_self v rest)))

theorem good_infer_fields (entries : List (String × JValue))
    (hrec : ∀ p ∈ entries, goodN (infer_type p.2) = true) :
    ∀ f ∈ infer_fields entries, goodN f.2.1 = true := by
  induction entries with
  | nil =>
    intro f hf
    rw [infer_fields] at hf
    simp at hf
  | cons hd tl ih =>
    intro f hf
    obtain ⟨kk, vv⟩ := hd
    rw [infer_fields] at hf
    rcases List.mem_cons.1 hf with rfl | hf'
    · exact hrec (kk, vv) (List.mem_cons_self _ _)
    · exact ih (fun p hp => hrec p (List.mem_cons_of_mem _ hp)) f hf'

theorem mem_dictInsert {α : Type} (x : String × α) (k : String) (v : α) :
    ∀ acc, x ∈ dictInsert acc k v → x ∈ acc ∨ x = (k, v) := by
  intro acc
  induction acc with
  | nil =>
    intro h
    simp [dictInsert] at h
    right
    exact h
  | cons hd tl ih =>
    intro h
    rw [dictInsert] at h
    by_cases hb : (hd.1 == k) = true
    · rw [if_pos hb] at h
      rcases List.mem_cons.1 h with rfl | h'
      · right; rfl
      · left; exact List.mem_cons_of_mem hd h'
    · rw [if_neg hb] at h
      rcases List.mem_cons.1 h with h0 | h'
      · left
        rw [h0]
        exact List.mem_cons_self hd tl
      · rcases ih h' with h2 | h2
        · left; exact List.mem_cons_of_mem hd h2
        · right; exact h2

theorem mem_dictOf_aux {α : Type} : ∀ (l acc : List (String × α))
    (x : String × α),
    x ∈ List.foldl (fun acc p => dictInsert acc p.1 p.2) acc l →
    x ∈ acc ∨ x ∈ l := by
  intro l
  induction l with
  | nil =>
    intro acc x h
    rw [List.foldl_nil] at h
    left
    exact h
  | cons p rest ih =>
    intro acc x h
    rw [List.foldl_cons] at h
    rcases ih _ x h with h1 | h1
    · rcases mem_dictInsert x p.1 p.2 acc h1 with h2 | h2
      · left; exact h2
      · right
        rw [h2]
        exact List.mem_cons_self p rest
    · right; exact List.mem_cons_of_mem p h1

theorem mem_dictOf {α : Type} (l : List (String × α)) (x : String × α)
    (h : x ∈ dictOf l) : x ∈ l := by
  rcases mem_dictOf_aux l [] x (by simpa [dictOf] using h) with h1 | h1
  · simp at h1
  · exact h1

theorem good_infer_aux : ∀ (k : Nat) (v : JValue), sizeOf v ≤ k →
    goodN (infer_type v) = true := by
  intro k
  induction k using Nat.strong_induction_on with
  | _ k ih =>
    intro v hsz
    cases v with
    | jnull => rw [infer_type]; simp [NULL, goodN]
    | jbool b => rw [infer_type]; simp [BOOL, goodN]
    | jint n => rw [infer_type]; simp [INT, goodN]
    | jfloat lit => rw [infer_type]; simp [FLOAT, goodN]
    | jstr s =>
      rw [infer_type]
      by_cases hd : is_datetime_string s = true
      · simp [hd, DATETIME, goodN]
      · simp [hd, STR, goodN]
    | jarr items =>
      cases items with
      | nil =>
        rw [infer_type]
        simp [ANY, goodN]
      | cons x xs =>
        rw [infer_type]
        rw [goodN_array]
        have hx : goodN (infer_type x) = true := by
          refine ih (sizeOf x) ?_ x le_rfl
          have h1 := List.sizeOf_lt_of_mem (List.mem_cons_self x xs)
          simp at hsz
          omega
        refine good_infer_items xs ?_ _ hx
        intro w hw
        refine ih (sizeOf w) ?_ w le_rfl
        have h1 := List.sizeOf_lt_of_mem (List.mem_cons_of_mem x hw)
        simp at hsz h1
        omega
    | jobj entries =>
      rw [infer_type]
      rw [from_mapping]
      rw [goodN_object, goodFields_iff]
      intro f hf
      rw [mem_sortPairsByKey] at hf
      refine good_infer_fields entries ?_ f (mem_dictOf _ f hf)
      intro p hp
      refine ih (sizeOf p.2) ?_ p.2 le_rfl
      have h1 := List.sizeOf_lt_of_mem hp
      have h2 : sizeOf p.2 < sizeOf p := by
        obtain ⟨a, b⟩ := p
        simp_arith
      simp at hsz
      omega

/-- The `Union` invariant holds for every inferred type. -/
theorem good_infer (v : JValue) : goodN (infer_type v) = true :=
  good_infer_aux (sizeOf v) v le_rfl

/-- C2 counterexample: the JSON-Schema importer breaks the `Union` invariant —
`_dedupe_union` neither collapses an `Any` option nor flattens nested unions,
so the schema `.jobj [("anyOf", .jarr [.jobj [], .jobj [("type", .jstr "integer")]])]` (an `anyOf` of the empty schema and `integer`) decodes to
`Union[Any, int]`, which keeps `Any` as an option instead of collapsing. -/
theorem json_schema_union_violates_invariant :
    from_json_schema_v (.jobj [("anyOf", .jarr
      [.jobj [], .jobj [("type", .jstr "integer")]])]) =
      some (.union [ANY, INT]) ∧
    goodN (.union [ANY, INT]) = false := by
  constructor
  · have hempty : from_json_schema_v (.jobj []) = some ANY := by
      rw [from_json_schema_v.eq_def]
      simp [lookupJ, isObjectTag]
    have hint : from_json_schema_v (.jobj [("type", .jstr "integer")]) =
        some INT := by
      rw [from_json_schema_v.eq_def]
      simp [lookupJ]
    have hopts : schema_options [.jobj [], .jobj [("type", .jstr "integer")]] =
        some [ANY, INT] := by
      simp [schema_options.eq_def, hempty, hint]
    rw [from_json_schema_v.eq_def]
    simp [lookupJ, JValue.isJObj, hopts, dedupe_union, sortDedupNodes,
      insNodeD, cmpKey, cmpN, cmpNat, cmpStr, cmpCharL, type_sort_key,
      type_name, Ordering.then, ANY, INT]
  · simp [goodN, goodOptions, distinctOpts, notMemN, TypeNode.isAny,
      TypeNode.isUnion, ANY, INT]

/-- C2 (amended): the `Union` invariant — at least 2 pairwise distinct
options, none itself a `Union`, none `Any` — holds recursively (`goodN`) for
everything the inference pipeline produces: `simplify_union` on a nonempty
list of invariant-respecting nodes, `join_types` on invariant-respecting
operands, and `infer_type` on every value.  The JSON-Schema importer's
`_dedupe_union` does not share it — see the counterexample. -/
theorem union_invariant_inference :
    (∀ (nodes : List TypeNode) (s : Bool), nodes ≠ [] →
      (∀ n ∈ nodes, goodN n = true) → goodN (simplify_union nodes s) = true) ∧
    (∀ (l r : TypeNode) (s : Bool), goodN l = true → goodN r = true →
      goodN (join_types l r s) = true) ∧
    (∀ v : JValue, goodN (infer_type v) = true) :=
  ⟨good_simplify, good_join, good_infer⟩

/-- C2 witness: the invariant holds at concrete inputs of each operation. -/
theorem union_invariant_inference_witness :
    goodN (simplify_union [INT, STR] false) = true ∧
    goodN (join_types FLOAT STR false) = true ∧
    goodN (infer_type (.jarr [.jint 1, .jstr "x"])) = true :=
  ⟨union_invariant_inference.1 [INT, STR] false (by simp)
     (by
       intro n hn
       simp at hn
       rcases hn with rfl | rfl
       · simp [INT, goodN]
       · simp [STR, goodN]),
   union_invariant_inference.2.1 FLOAT STR false (by simp [FLOAT, goodN])
     (by simp [STR, goodN]),
   union_invariant_inference.2.2 _⟩

end PydanticForge
